import Mathlib

/-!
Shallow embedding of calibre's fuzzy-matching engine
(`src/calibre/utils/matcher.py`) and proofs about it.

Python floats are modelled as exact rational numbers: the type `Q` below holds
a numerator and a positive denominator and its operations are plain integer
arithmetic (no normalization), with a proven interpretation `Q.toRat` into
Mathlib's `ℚ`.  Python lists become `List`, Python ints `Nat`/`Int`, and code
that can raise returns `Except`.  The locale-aware primitives from
`calibre.utils.icu` (not part of the sources) are parameters of the embedding,
collected in `IcuEnv`.
-/

namespace CalibreMatcher

/-- Exact rational arithmetic used to model Python float arithmetic: a
fraction `num / den` with a positive denominator, not kept in lowest terms so
that every operation is plain integer arithmetic. -/
structure Q where
  num : Int
  den : Nat
  dpos : 0 < den

instance : DecidableEq Q := fun a b =>
  decidable_of_iff (a.num = b.num ∧ a.den = b.den) (by cases a; cases b; simp)

/-- Rational number 0. -/
def Q.zero : Q := ⟨0, 1, Nat.one_pos⟩

/-- Embedding of an integer. -/
def Q.ofInt (n : Int) : Q := ⟨n, 1, Nat.one_pos⟩

/-- Embedding of a natural number. -/
def Q.ofNat (n : Nat) : Q := ⟨(n : Int), 1, Nat.one_pos⟩

/-- Addition of fractions by cross multiplication. -/
def Q.add (a b : Q) : Q :=
  ⟨a.num * (b.den : Int) + b.num * (a.den : Int), a.den * b.den, Nat.mul_pos a.dpos b.dpos⟩

/-- Multiplication of fractions. -/
def Q.mul (a b : Q) : Q := ⟨a.num * b.num, a.den * b.den, Nat.mul_pos a.dpos b.dpos⟩

/-- Negation of a fraction. -/
def Q.neg (a : Q) : Q := ⟨-a.num, a.den, a.dpos⟩

/-- Reciprocal; the (unreachable in the embedding) reciprocal of zero is 0. -/
def Q.inv (a : Q) : Q :=
  if h : 0 < a.num then ⟨(a.den : Int), a.num.toNat, by omega⟩
  else if h2 : a.num < 0 then ⟨-(a.den : Int), a.num.natAbs, by omega⟩
  else Q.zero

/-- Division of fractions. -/
def Q.div (a b : Q) : Q := a.mul b.inv

/-- The fraction `n / d` for positive literals `d`. -/
def Q.frac (n : Int) (d : Nat) (h : 0 < d := by decide) : Q := ⟨n, d, h⟩

/-- Value-level order on fractions (Python `<` on floats). -/
def Q.lt (a b : Q) : Prop := a.num * (b.den : Int) < b.num * (a.den : Int)

/-- Value-level order on fractions (Python `<=` on floats). -/
def Q.le (a b : Q) : Prop := a.num * (b.den : Int) ≤ b.num * (a.den : Int)

/-- Value-level equality of fractions (Python `==` on floats, and float
truthiness via comparison with 0). -/
def Q.beq (a b : Q) : Bool := a.num * (b.den : Int) == b.num * (a.den : Int)

instance : DecidableRel Q.lt := fun a b =>
  inferInstanceAs (Decidable (a.num * (b.den : Int) < b.num * (a.den : Int)))

instance : DecidableRel Q.le := fun a b =>
  inferInstanceAs (Decidable (a.num * (b.den : Int) ≤ b.num * (a.den : Int)))

/-- Interpretation of `Q` into Mathlib's rationals. -/
def Q.toRat (a : Q) : ℚ := (a.num : ℚ) / (a.den : ℚ)

/-- Modelled from the spec: the locale-aware character primitives of
`calibre.utils.icu` used by the scorer. `peq` is primary-strength
(accent- and case-insensitive) character equality; `lower`/`upper` are
`icu_lower`/`icu_upper` on single-character strings. -/
structure IcuEnv where
  peq : Char → Char → Bool
  lower : Char → Char
  upper : Char → Char

/-- Modelled from the spec: `primary_find(n, hay)[0]` from `calibre.utils.icu`:
the offset of the first occurrence of the single character `n` in `hay` under
primary-strength comparison, or `-1` when there is none. -/
def primary_find (env : IcuEnv) (n : Char) (hay : List Char) : Int :=
  match hay.findIdx? (fun c => env.peq n c) with
  | some j => (j : Int)
  | none => -1

/-- `DEFAULT_LEVEL1 = '/'` (membership of a single character in the string). -/
def DEFAULT_LEVEL1 : List Char := ['/']

/-- `DEFAULT_LEVEL2 = '-_ 0123456789'`. -/
def DEFAULT_LEVEL2 : List Char := "-_ 0123456789".toList

/-- `DEFAULT_LEVEL3 = '.'`. -/
def DEFAULT_LEVEL3 : List Char := ['.']

/-- The fields of the scoring context (`PyScorer`) read by the scoring
algorithm: the three boundary-character sets, `max_score_per_char`, and the
locale primitives. -/
structure Ctx where
  level1 : List Char
  level2 : List Char
  level3 : List Char
  max_score_per_char : Q
  icu : IcuEnv

/-- `calc_score_for_char(ctx, prev, current, distance)`: the boundary factor
applied to `max_score_per_char`; the float constants `0.9`, `0.8`, `0.7`,
`0.75` become the exact fractions `9/10`, `8/10`, `7/10`, `3/4`. -/
def calc_score_for_char (ctx : Ctx) (prev current : Char) (distance : Int) : Q :=
  let ans := ctx.max_score_per_char
  let factor : Q :=
    if ctx.level1.contains prev then Q.frac 9 10
    else if ctx.level2.contains prev || (ctx.icu.lower prev == prev && ctx.icu.upper current == current) then Q.frac 8 10
    else if ctx.level3.contains prev then Q.frac 7 10
    else ((Q.ofInt 1).div (Q.ofInt distance)).mul (Q.frac 3 4)
  ans.mul factor

/-- The per-character score computed inside `process_item`'s inner loop:
`ctx.max_score_per_char if distance <= 1 else calc_score_for_char(ctx,
haystack[pos - 1], haystack[pos], distance)` where `distance = pos - last_idx`. -/
def score_for_char (ctx : Ctx) (hay : List Char) (pos last_idx : Nat) : Q :=
  let distance : Int := (pos : Int) - (last_idx : Int)
  if distance ≤ 1 then ctx.max_score_per_char
  else calc_score_for_char ctx (hay.getD (pos - 1) ' ') (hay.getD pos ' ') distance

/-- A state on `process_item`'s explicit stack:
`(hidx, nidx, last_idx, score, positions)`. -/
structure SState where
  hidx : Nat
  nidx : Nat
  last_idx : Nat
  score : Q
  positions : List Int
  deriving DecidableEq

/-- One run of the inner `for i in range(nidx, len(needle))` loop of
`process_item`, beginning at needle offset `i` with haystack offset `hidx`,
previous-match offset `last_idx`, accumulated `score` and `positions`.
`fuel` is the number of remaining loop iterations, `len(needle) - i`.
Returns the `(score, positions)` the loop ends with (a `break` sets the score
to `0`) together with the states pushed on the stack, in push order. -/
def chainFrom (ctx : Ctx) (hay needle : List Char) :
    Nat → Nat → Nat → Nat → Q → List Int → ((Q × List Int) × List SState)
  | 0, _, _, _, score, positions => ((score, positions), [])
  | fuel + 1, i, hidx, last_idx, score, positions =>
    let n := needle.getD i ' '
    if (hay.length : Int) - (hidx : Int) < (needle.length : Int) - (i : Int) then
      ((Q.zero, positions), [])
    else
      let pos0 := primary_find ctx.icu n (hay.drop hidx)
      if pos0 = -1 then ((Q.zero, positions), [])
      else
        let pos := pos0.toNat + hidx
        let sfc := score_for_char ctx hay pos last_idx
        let pushed : SState := ⟨pos + 1, i, last_idx, score, positions⟩
        let rest := chainFrom ctx hay needle fuel (i + 1) (pos + 1) pos (score.add sfc)
          (positions.set i (pos : Int))
        (rest.1, pushed :: rest.2)

/-- The memo dictionary `ctx.memory`, keyed by `(hidx, nidx, last_idx)`. -/
abbrev Memory := List ((Nat × Nat × Nat) × (Q × List Int))

/-- `if score > final_score: final_score, final_positions = score, positions`. -/
def updBest (best : Q × List Int) (score : Q) (positions : List Int) : Q × List Int :=
  if Q.lt best.1 score then (score, positions) else best

/-- The `while stack:` loop of `process_item`, after its first iteration.
The head of the list is the top of the stack, so the states pushed by one
chain are prepended in reverse push order.  `fuel` bounds the number of loop
iterations; each iteration strictly decreases the potential
`Σ (len(needle)+1)^(len(haystack)+1-hidx)` over the stack (every pushed state
has a strictly larger `hidx ≤ len(haystack)` than the popped one), so any
`fuel ≥ (len(needle)+1)^(len(haystack)+2)` is never exhausted. -/
def piLoop (ctx : Ctx) (hay needle : List Char) (fuel : Nat) :
    List SState → Memory → (Q × List Int) → (Q × List Int) :=
  Nat.rec (motive := fun _ => List SState → Memory → (Q × List Int) → (Q × List Int))
    (fun _ _ best => best)
    (fun _ ih stack mem best =>
      match stack with
      | [] => best
      | st :: stack =>
        match mem.lookup (st.hidx, st.nidx, st.last_idx) with
        | some v => ih stack mem (updBest best v.1 v.2)
        | none =>
          let c := chainFrom ctx hay needle (needle.length - st.nidx) st.nidx st.hidx st.last_idx st.score st.positions
          ih (c.2.reverse ++ stack) (((st.hidx, st.nidx, st.last_idx), c.1) :: mem)
            (updBest best c.1.1 c.1.2))
    fuel

/-- `process_item(ctx, haystack, needle)` with the memory freshly emptied, as
at its only call site (`PyScorer.__call__` sets `self.memory = {}` just before
each call).  The first loop iteration pops the initial state
`(0, 0, 0, 0, [-1]*len(needle))`; since Python's `final_positions` aliases the
initial state's list, which the first chain mutates in place, the running best
positions after that iteration are the first chain's final positions
regardless of its score, while the best score follows `score > final_score`. -/
def process_item (ctx : Ctx) (hay needle : List Char) : Q × List Int :=
  let c0 := chainFrom ctx hay needle needle.length 0 0 0 Q.zero (List.replicate needle.length (-1))
  let mem0 : Memory := [((0, 0, 0), c0.1)]
  let best0 : Q × List Int := (if Q.lt Q.zero c0.1.1 then c0.1.1 else Q.zero, c0.1.2)
  piLoop ctx hay needle ((needle.length + 1) ^ (hay.length + 2)) c0.2.reverse mem0 best0

/-- The same stack-based search with the memoization removed (every popped
state runs its chain): the spec's exhaustive branch-exploring search. -/
def piLoopNoMemo (ctx : Ctx) (hay needle : List Char) (fuel : Nat) :
    List SState → (Q × List Int) → (Q × List Int) :=
  Nat.rec (motive := fun _ => List SState → (Q × List Int) → (Q × List Int))
    (fun _ best => best)
    (fun _ ih stack best =>
      match stack with
      | [] => best
      | st :: stack =>
        let c := chainFrom ctx hay needle (needle.length - st.nidx) st.nidx st.hidx st.last_idx st.score st.positions
        ih (c.2.reverse ++ stack) (updBest best c.1.1 c.1.2))
    fuel

/-- `process_item` without memoization: the exhaustive search over all valid
subsequence alignments of the needle in the haystack. -/
def process_item_nomemo (ctx : Ctx) (hay needle : List Char) : Q × List Int :=
  let c0 := chainFrom ctx hay needle needle.length 0 0 0 Q.zero (List.replicate needle.length (-1))
  let best0 : Q × List Int := (if Q.lt Q.zero c0.1.1 then c0.1.1 else Q.zero, c0.1.2)
  piLoopNoMemo ctx hay needle ((needle.length + 1) ^ (hay.length + 2)) c0.2.reverse best0

/-- `needle` occurs as an ordered (non-contiguous) subsequence of `hay`, each
character compared by `peq`. -/
inductive SubseqBy (peq : Char → Char → Bool) : List Char → List Char → Prop
  | nil (hay : List Char) : SubseqBy peq [] hay
  | cons {n c : Char} {ns hs : List Char} : peq n c = true → SubseqBy peq ns hs →
      SubseqBy peq (n :: ns) (c :: hs)
  | skip {ns hs : List Char} (c : Char) : SubseqBy peq ns hs → SubseqBy peq ns (c :: hs)

/-- Greedy decision procedure for `SubseqBy`. -/
def isSubseqBy (peq : Char → Char → Bool) : List Char → List Char → Bool
  | [], _ => true
  | _ :: _, [] => false
  | n :: ns, c :: hs => if peq n c then isSubseqBy peq ns hs else isSubseqBy peq (n :: ns) hs

/-- Python exceptions the embedded code can raise. -/
inductive PyErr
  | zeroDivision
  deriving DecidableEq

/-- Python `a / b` on floats: raises `ZeroDivisionError` when `b == 0`. -/
def pydiv (a b : Q) : Except PyErr Q :=
  if Q.beq b Q.zero then .error .zeroDivision else .ok (a.div b)

/-- The state of a `PyScorer` after `__init__` (the per-call fields
`max_score_per_char` and `memory` are set during `__call__`). -/
structure PyScorer where
  level1 : List Char
  level2 : List Char
  level3 : List Char
  items : List String

/-- `PyScorer(items)` with the default boundary sets. -/
def PyScorer.init (items : List String) : PyScorer :=
  ⟨DEFAULT_LEVEL1, DEFAULT_LEVEL2, DEFAULT_LEVEL3, items⟩

/-- One step of the `PyScorer.__call__` generator for one item:
`self.max_score_per_char = (1.0 / len(item) + 1.0 / len(needle)) / 2.0`
(each division can raise `ZeroDivisionError`), `self.memory = {}`, then
`process_item(self, item, needle)`. -/
def scoreOneItem (env : IcuEnv) (l1 l2 l3 : List Char) (needle item : String) :
    Except PyErr (Q × List Int) := do
  let a ← pydiv (Q.ofInt 1) (Q.ofNat item.length)
  let b ← pydiv (Q.ofInt 1) (Q.ofNat needle.length)
  pure (process_item ⟨l1, l2, l3, (a.add b).div (Q.ofNat 2), env⟩
    item.toList needle.toList)

/-- `PyScorer.__call__(needle)` is a generator; consuming it runs
`scoreOneItem` per item, in order.  This is the value of the fully consumed
generator: the list of `(score, positions)` pairs, or the first exception
raised during consumption. -/
def PyScorer.call (env : IcuEnv) (P : PyScorer) (needle : String) :
    Except PyErr (List (Q × List Int)) :=
  P.items.mapM (scoreOneItem env P.level1 P.level2 P.level3 needle)

/-- The `while tasks:` loop of `split`, carrying the running index `count`.
Each iteration removes `delta ≥ 1` elements, so `fuel = length of the list`
bounds the number of iterations.  The guard on `delta = 0` is unreachable at
the call sites (`pool_size ≥ 1`, and `delta = ceil(n/pool_size) ≥ 1` for a
non-empty list): Python would loop forever there. -/
def splitGo (delta : Nat) : Nat → Nat → List α → List (List (Nat × α))
  | 0, _, _ => []
  | _ + 1, _, [] => []
  | fuel + 1, count, t :: ts =>
    if delta = 0 then []
    else
      let sec := ((t :: ts).take delta).enum.map (fun p => (count + p.1, p.2))
      sec :: splitGo delta fuel (count + sec.length) ((t :: ts).drop delta)

/-- `split(tasks, pool_size)`: split a list into at most `pool_size` sublists
of `(original index, element)` pairs, each of length
`delta = ceil(len(tasks)/pool_size)` except possibly the last. -/
def split (tasks : List α) (pool_size : Nat) : List (List (Nat × α)) :=
  splitGo ((tasks.length + pool_size - 1) / pool_size) tasks.length 0 tasks

instance {ε α : Type} [DecidableEq ε] [DecidableEq α] : DecidableEq (Except ε α)
  | .ok a, .ok b => decidable_of_iff (a = b) (by simp)
  | .error a, .error b => decidable_of_iff (a = b) (by simp)
  | .ok _, .error _ => isFalse (by simp)
  | .error _, .ok _ => isFalse (by simp)

/-- The ambient functions a `Matcher` uses: the icu primitives, Unicode NFC
normalization (`unicodedata.normalize('NFC', ·)`) and the locale sort key
`primary_sort_key` (computed, cached, and never used). -/
structure MatcherEnv where
  icu : IcuEnv
  nfc : String → String
  sortkey : String → List Nat

/-- The immutable part of a `Matcher` built by `Matcher.__init__` with the
`PyScorer` scorer factory (`default_scorer` falls back to `PyScorer` whenever
the C extension is unavailable). -/
structure MatcherData where
  items : List String
  task_maps : List (List (Nat × Nat))
  scorers : List PyScorer

/-- The mutable part of a `Matcher`: the lazily computed `sort_keys` cache. -/
structure MState where
  sort_keys : Option (List (Nat × List Nat))

/-- `Matcher.__init__`: keep the truthy (non-empty) candidates, normalize
them, partition them with `split` over the `nworkers = max(1, cpu_count())`
pool slots, and build one local-to-global index map and one scorer per
partition. -/
def Matcher.init (env : MatcherEnv) (nworkers : Nat) (items0 : List String) : MatcherData :=
  let items := (items0.filter (fun x => x != "")).map env.nfc
  let tasks := split items nworkers
  ⟨items,
    tasks.map (fun task => task.enum.map (fun jp => (jp.1, jp.2.1))),
    tasks.map (fun task => PyScorer.init (task.map Prod.snd))⟩

/-- A message on the result queue: `Worker.run` pushes
`(True, (tasknum, scorer(query)))` on success and `(False, error)` after an
exception. -/
inductive WMsg
  | ok (tasknum : Nat) (gen : Except PyErr (List (Q × List Int)))
  | fail (msg : String)
  deriving DecidableEq

/-- `Worker.run` handling one job `(i, scorer, query)`: `scorer(query)` only
creates a generator — no scoring code runs in the worker — so the `try` body
cannot raise and the pushed message is always `(True, (i, generator))`; the
generator's eventual value is recorded unevaluated. -/
def Worker.runJob (env : IcuEnv) (job : Nat × PyScorer × String) : WMsg :=
  .ok job.1 (PyScorer.call env job.2.1 job.2.2)

/-- The pair of result tables `scores, positions` built by the collection
loop, as functions of the global candidate index. -/
abbrev Tables := (Nat → Option Q) × (Nat → Option (List Int))

/-- The inner loop `for i, (score, pos) in enumerate(vals): item =
task_map[i]; scores[item] = score; positions[item] = pos` for one partition. -/
def applyVals (tm : List (Nat × Nat)) (vals : List (Q × List Int)) (sp : Tables) : Tables :=
  vals.enum.foldl
    (fun sp iv =>
      let item := (tm.lookup iv.1).getD 0
      ((fun j => if j = item then some iv.2.1 else sp.1 j),
       (fun j => if j = item then some iv.2.2 else sp.2 j)))
    sp

/-- One assignment of that loop, `scores[item] = score; positions[item] = pos`
for `item = task_map[i]`, as a standalone step function. -/
def avStep (tm : List (Nat × Nat)) (sp : Tables) (iv : Nat × Q × List Int) : Tables :=
  ((fun j => if j = (tm.lookup iv.1).getD 0 then some iv.2.1 else sp.1 j),
   (fun j => if j = (tm.lookup iv.1).getD 0 then some iv.2.2 else sp.2 j))

/-- The result-collection loop of `Matcher.__call__`: one message per
partition, in arrival order.  Iterating `vals` (the generator) happens here,
inside the orchestrator, so an exception raised while scoring propagates out
of `__call__` (the `Except` short-circuits) instead of being recorded in
`error`; a `(False, msg)` message overwrites `error` with `msg`. -/
def collectLoop (task_maps : List (List (Nat × Nat))) :
    List WMsg → Tables → Option String → Except PyErr (Tables × Option String)
  | [], sp, err => .ok (sp, err)
  | .fail m :: rest, sp, _ => collectLoop task_maps rest sp (some m)
  | .ok tasknum gen :: rest, sp, err =>
    match gen with
    | .error e => .error e
    | .ok vals => collectLoop task_maps rest (applyVals (task_maps.getD tasknum []) vals sp) err

/-- Line 140 of the source: the tuples `(-scores[i], item, positions[i])` in
candidate order. -/
def scoredTuples (items : List String) (scores : Nat → Option Q)
    (positions : Nat → Option (List Int)) : List (Q × String × List Int) :=
  items.enum.map (fun p => (((scores p.1).getD Q.zero).neg, p.2, (positions p.1).getD []))

/-- Stable insertion of `x` after every element `y` with `le y x` — the
insertion step of a stable ascending sort. -/
def stableInsert (le : α → α → Bool) (x : α) : List α → List α
  | [] => [x]
  | y :: ys => if le y x then y :: stableInsert le x ys else x :: y :: ys

/-- Python's stable `sorted` with comparison `le`: later elements are placed
after earlier elements that compare less than or equal, so elements that
compare equal keep their original relative order. -/
def stableSort (le : α → α → Bool) (l : List α) : List α :=
  l.foldl (fun acc x => stableInsert le x acc) []

/-- Comparison of the line-140 tuples by `key=itemgetter(0)` only. -/
def tupleLE (a b : Q × String × List Int) : Bool := decide (Q.le a.1 b.1)

/-- `sorted(((-scores[i], item, positions[i]) ...), key=itemgetter(0))`. -/
def pySorted (l : List (Q × String × List Int)) : List (Q × String × List Int) :=
  stableSort tupleLE l

/-- `del items[limit:]` when a limit is given, for non-negative limits. -/
def truncateTo (limit : Option Nat) (l : List α) : List α :=
  match limit with
  | none => l
  | some k => l.take k

/-- Assignment `d[key] = v` on an insertion-ordered dictionary: an existing
key keeps its position and gets the new value, a new key is appended. -/
def odInsert (key : String) (v : List Int) (m : List (String × List Int)) :
    List (String × List Int) :=
  if m.any (fun p => p.1 == key) then m.map (fun p => if p.1 == key then (key, v) else p)
  else m ++ [(key, v)]

/-- `OrderedDict(pairs)`. -/
def odFromPairs (l : List (String × List Int)) : List (String × List Int) :=
  l.foldl (fun m p => odInsert p.1 p.2 m) []

/-- Lines 140-145 of the source: sort the tuples by negated score with a
stable sort, truncate to `limit`, drop the tuples with falsy (zero) first
component, and build the ordered mapping item ↦ positions. -/
def finalize (items : List String) (scores : Nat → Option Q)
    (positions : Nat → Option (List Int)) (limit : Option Nat) : List (String × List Int) :=
  odFromPairs (((truncateTo limit (pySorted (scoredTuples items scores positions))).filter
      (fun t => !(Q.beq t.1 Q.zero))).map (fun t => (t.2.1, t.2.2)))

/-- What a `Matcher.__call__` can raise: an exception propagating uncaught out
of the call, or the aggregated `Exception('Failed to score items: ...')`. -/
inductive QueryError
  | uncaught (e : PyErr)
  | failedToScore (msg : String)
  deriving DecidableEq

/-- `Matcher.__call__(query, limit)`.  `arrival` is the order in which the
per-partition results are taken from the result queue — a permutation of the
partition identifiers decided by thread scheduling.  The query is normalized,
the `sort_keys` cache is filled on first use, one result per partition is
collected, and the merged tables are ranked by `finalize`; a failed job makes
the call raise the aggregated error after draining all results. -/
def Matcher.call (env : MatcherEnv) (md : MatcherData) (ms : MState)
    (query : String) (limit : Option Nat) (arrival : List Nat) :
    Except QueryError (List (String × List Int)) × MState :=
  let q := env.nfc query
  let sort_keys := match ms.sort_keys with
    | some sk => sk
    | none => md.items.enum.map (fun p => (p.1, env.sortkey p.2))
  let msgs := arrival.map (fun i => Worker.runJob env.icu (i, md.scorers.getD i (PyScorer.init []), q))
  match collectLoop md.task_maps msgs ((fun _ => none), (fun _ => none)) none with
  | .error e => (.error (.uncaught e), ⟨some sort_keys⟩)
  | .ok (_, some msg) => (.error (.failedToScore ("Failed to score items: " ++ msg)), ⟨some sort_keys⟩)
  | .ok (sp, none) => (.ok (finalize md.items sp.1 sp.2 limit), ⟨some sort_keys⟩)

/-- The value of partition `i`'s generator for a query. -/
def partitionVals (env : MatcherEnv) (md : MatcherData) (q : String) (i : Nat) :
    Except PyErr (List (Q × List Int)) :=
  PyScorer.call env.icu (md.scorers.getD i (PyScorer.init [])) q

/-- The merged per-candidate score table, written directly: candidate `j`'s
score comes from the unique partition whose local-to-global map contains `j`. -/
def specScore (env : MatcherEnv) (md : MatcherData) (q : String) (j : Nat) : Option Q :=
  (List.range md.task_maps.length).findSome? (fun i =>
    (md.task_maps.getD i []).findSome? (fun p =>
      if p.2 = j then
        match partitionVals env md q i with
        | .error _ => none
        | .ok vals => (vals.get? p.1).map Prod.fst
      else none))

/-- The merged per-candidate positions table, written directly. -/
def specPositions (env : MatcherEnv) (md : MatcherData) (q : String) (j : Nat) :
    Option (List Int) :=
  (List.range md.task_maps.length).findSome? (fun i =>
    (md.task_maps.getD i []).findSome? (fun p =>
      if p.2 = j then
        match partitionVals env md q i with
        | .error _ => none
        | .ok vals => (vals.get? p.1).map Prod.snd
      else none))

/-- The per-character score exactly as the spec states it: the full
`max_score_per_char` when the distance to the previous match is at most 1,
and otherwise `max_score_per_char` times a factor read off the character
preceding the match: `0.9` for a level-1 separator, `0.8` for a level-2
separator or a lowercase-to-uppercase transition, `0.7` for a level-3
separator, and `(1/distance) * 0.75` otherwise. -/
def specCharScore (level1 level2 level3 : List Char) (lower upper : Char → Char)
    (mspc : Q) (prev current : Char) (distance : Int) : Q :=
  if distance ≤ 1 then mspc
  else if level1.contains prev then mspc.mul (Q.frac 9 10)
  else if level2.contains prev || (lower prev == prev && upper current == current) then
    mspc.mul (Q.frac 8 10)
  else if level3.contains prev then mspc.mul (Q.frac 7 10)
  else mspc.mul (((Q.ofInt 1).div (Q.ofInt distance)).mul (Q.frac 3 4))

/-- Comparison of enumerated elements by the key first and by the original
position on key ties: the order a stable sort realizes. -/
def lexLE (le : α → α → Bool) (a b : Nat × α) : Bool :=
  (le a.2 b.2 && !(le b.2 a.2)) || (le a.2 b.2 && le b.2 a.2 && decide (a.1 ≤ b.1))

/-- Concrete instantiation of the icu primitives on ASCII: case-insensitive
equality and ASCII case mapping (used for concrete runs of the embedding). -/
def asciiIcu : IcuEnv := ⟨fun a b => a.toLower == b.toLower, Char.toLower, Char.toUpper⟩

/-- Concrete matcher environment: ASCII icu primitives, identity
normalization, trivial sort key. -/
def plainEnv : MatcherEnv := ⟨asciiIcu, id, fun _ => []⟩

/-- The scoring context `PyScorer.__call__` builds for the haystack
`"xa/axbxc/c"` (length 10) and the needle `"abc"` (length 3):
`max_score_per_char = (1/10 + 1/3) / 2`. -/
def ctxC1 : Ctx :=
  ⟨DEFAULT_LEVEL1, DEFAULT_LEVEL2, DEFAULT_LEVEL3,
    (((Q.ofInt 1).div (Q.ofNat 10)).add ((Q.ofInt 1).div (Q.ofNat 3))).div (Q.ofNat 2),
    asciiIcu⟩

/-- Concrete matcher over `["a", "a", "ax", "ay"]` with two pool slots. -/
def mdDup : MatcherData := Matcher.init plainEnv 2 ["a", "a", "ax", "ay"]

/-- Concrete matcher over `["ab", "zz"]` with one pool slot. -/
def mdPair : MatcherData := Matcher.init plainEnv 1 ["ab", "zz"]

/-- Concrete matcher over `["xy"]` with one pool slot. -/
def mdXY : MatcherData := Matcher.init plainEnv 1 ["xy"]

/-! ## Lemmas about the exact-fraction arithmetic -/

theorem Q.den_cast_ne_zero (a : Q) : (a.den : ℚ) ≠ 0 :=
  Nat.cast_ne_zero.mpr a.dpos.ne'

theorem Q.toRat_eq_of_beq {a b : Q} (h : Q.beq a b = true) : a.toRat = b.toRat := by
  have hb : a.num * (b.den : Int) = b.num * (a.den : Int) := by
    simpa [Q.beq] using h
  rw [Q.toRat, Q.toRat, div_eq_div_iff (Q.den_cast_ne_zero a) (Q.den_cast_ne_zero b)]
  exact_mod_cast hb

/-! ## C1: the memoized stack search versus the exhaustive search -/

/-- C1: the claim states that for every haystack and needle the memoized
stack-based search returns the same result (maximum score and a
maximum-scoring placement) as the exhaustive branch-exploring search without
memoization.  This fails: for the haystack `"xa/axbxc/c"` and the needle
`"abc"`, the memoized search returns score `2171/4800` with positions
`[1, 5, 9]`, while the exhaustive search attains `377/800 = 2262/4800` with
positions `[3, 5, 9]` — a memo entry stores the accumulated prefix score of
its first visitor under a key that does not include it, so the later, better
prefix reaching the same `(hidx, nidx, last_idx)` state reuses the stale
total. -/
theorem C1_memo_differs_from_exhaustive :
    Q.toRat (process_item ctxC1 "xa/axbxc/c".toList "abc".toList).1 = 2171/4800
    ∧ (process_item ctxC1 "xa/axbxc/c".toList "abc".toList).2 = [1, 5, 9]
    ∧ Q.toRat (process_item_nomemo ctxC1 "xa/axbxc/c".toList "abc".toList).1 = 377/800
    ∧ (process_item_nomemo ctxC1 "xa/axbxc/c".toList "abc".toList).2 = [3, 5, 9]
    ∧ (2171/4800 : ℚ) ≠ 377/800 := by
  refine ⟨?_, by decide, ?_, by decide, by norm_num⟩
  · have h := Q.toRat_eq_of_beq (a := (process_item ctxC1 "xa/axbxc/c".toList "abc".toList).1)
      (b := Q.frac 2171 4800) (by decide)
    rw [h]
    norm_num [Q.toRat, Q.frac]
  · have h := Q.toRat_eq_of_beq (a := (process_item_nomemo ctxC1 "xa/axbxc/c".toList "abc".toList).1)
      (b := Q.frac 377 800) (by decide)
    rw [h]
    norm_num [Q.toRat, Q.frac]

/-! ## Lemmas about the partitioner -/

theorem sec_eq_enumFrom {α : Type} (l : List α) (count : Nat) :
    l.enum.map (fun p => (count + p.1, p.2)) = l.enumFrom count := by
  rw [List.enumFrom_eq_map_enum]
  exact List.map_congr_left (fun p _ => by simp [Prod.map, Nat.add_comm])

theorem splitGo_flatten {α : Type} (delta : Nat) (hd : 0 < delta) :
    ∀ (fuel : Nat) (l : List α) (count : Nat), l.length ≤ fuel →
      (splitGo delta fuel count l).flatten = l.enumFrom count := by
  intro fuel
  induction fuel with
  | zero => intro l count h; rw [List.length_eq_zero.mp (Nat.le_zero.mp h)]; simp [splitGo]
  | succ fuel ih =>
    intro l count h
    match l with
    | [] => simp [splitGo]
    | t :: ts =>
      rw [splitGo]
      rw [if_neg hd.ne']
      simp only [List.flatten_cons]
      rw [ih _ _ (by simp at h ⊢; omega)]
      rw [List.length_map, List.enum_length, sec_eq_enumFrom]
      rw [← List.enumFrom_append]
      rw [List.take_append_drop]

theorem split_flatten {α : Type} (l : List α) (W : Nat) (hW : 0 < W) :
    (split l W).flatten = l.enum := by
  match l with
  | [] => simp [split, splitGo]
  | t :: ts =>
    have hd : 0 < ((t :: ts).length + W - 1) / W := by
      apply Nat.div_pos (by simp only [List.length_cons]; omega) hW
    rw [split, splitGo_flatten _ hd _ _ _ le_rfl, List.enum_eq_enumFrom]

theorem splitGo_nil {α : Type} (delta fuel count : Nat) :
    splitGo delta fuel count ([] : List α) = [] := by
  cases fuel <;> simp [splitGo]

theorem splitGo_forall_parts {α : Type} (delta : Nat) (hd : 0 < delta) :
    ∀ (fuel : Nat) (l : List α) (count : Nat),
      ∀ part ∈ splitGo delta fuel count l, part ≠ [] ∧ part.length ≤ delta := by
  intro fuel
  induction fuel with
  | zero => intro l count part hp; simp [splitGo] at hp
  | succ fuel ih =>
    intro l count part hp
    match l with
    | [] => simp [splitGo] at hp
    | t :: ts =>
      rw [splitGo, if_neg hd.ne'] at hp
      rcases List.mem_cons.mp hp with h | h
      · subst h
        have hlen : (((t :: ts).take delta).enum.map (fun p => (count + p.1, p.2))).length
            = min delta (ts.length + 1) := by simp
        constructor
        · rw [← List.length_pos, hlen]; omega
        · rw [hlen]; omega
      · exact ih _ _ part h

theorem splitGo_length_mul {α : Type} (delta : Nat) (hd : 0 < delta) :
    ∀ (fuel : Nat) (l : List α) (count : Nat), l.length ≤ fuel →
      delta * (splitGo delta fuel count l).length < l.length + delta := by
  intro fuel
  induction fuel with
  | zero =>
    intro l count h
    rw [List.length_eq_zero.mp (Nat.le_zero.mp h)]
    simp [splitGo]; omega
  | succ fuel ih =>
    intro l count h
    match l with
    | [] => simp [splitGo]; omega
    | t :: ts =>
      rw [splitGo, if_neg hd.ne']
      by_cases hcase : delta ≤ ts.length + 1
      · have h2 := ih ((t :: ts).drop delta) (count + (((t :: ts).take delta).enum.map
          (fun p => (count + p.1, p.2))).length) (by simp at h ⊢; omega)
        simp only [List.length_drop, List.length_cons] at h2
        rw [Nat.sub_add_cancel hcase] at h2
        simp only [List.length_cons]
        rw [Nat.mul_succ]
        exact Nat.add_lt_add_right h2 delta
      · have hdrop : (t :: ts).drop delta = [] :=
          List.drop_eq_nil_of_le (by simp; omega)
        rw [hdrop]
        simp only [splitGo_nil, List.length_cons, List.length_nil, Nat.mul_one]
        omega

theorem split_parts {α : Type} (l : List α) (W : Nat) (hW : 0 < W) :
    ∀ part ∈ split l W, part ≠ [] ∧ part.length ≤ (l.length + W - 1) / W := by
  match l with
  | [] => intro part hp; rw [split, splitGo_nil] at hp; simp at hp
  | t :: ts =>
    have hd : 0 < ((t :: ts).length + W - 1) / W := by
      apply Nat.div_pos (by simp only [List.length_cons]; omega) hW
    exact splitGo_forall_parts _ hd _ _ _

theorem split_length_le {α : Type} (l : List α) (W : Nat) (hW : 0 < W) :
    (split l W).length ≤ W := by
  match l with
  | [] => rw [split, splitGo_nil]; simp
  | t :: ts =>
    have hd : 0 < ((t :: ts).length + W - 1) / W :=
      Nat.div_pos (by simp only [List.length_cons]; omega) hW
    have hmul := splitGo_length_mul _ hd (t :: ts).length (t :: ts) 0 le_rfl
    have hWd : (t :: ts).length ≤ (((t :: ts).length + W - 1) / W) * W := by
      have hdm := Nat.div_add_mod ((t :: ts).length + W - 1) W
      have hmod : ((t :: ts).length + W - 1) % W < W := Nat.mod_lt _ hW
      have hn1 : 0 < (t :: ts).length := by simp
      rw [Nat.mul_comm]
      omega
    by_contra hcon
    push_neg at hcon
    rw [split] at hcon
    have h2 : (((t :: ts).length + W - 1) / W) * (W + 1) ≤
        (((t :: ts).length + W - 1) / W) * (splitGo (((t :: ts).length + W - 1) / W)
          (t :: ts).length 0 (t :: ts)).length :=
      Nat.mul_le_mul_left _ hcon
    rw [Nat.mul_add, Nat.mul_one] at h2
    linarith [hmul, hWd, h2]

theorem split_mem_get? {α : Type} (l : List α) (W : Nat) (hW : 0 < W) :
    ∀ part ∈ split l W, ∀ p ∈ part, l.get? p.1 = some p.2 := by
  intro part hpart p hp
  have hmem : p ∈ (split l W).flatten := List.mem_flatten.mpr ⟨part, hpart, hp⟩
  rw [split_flatten l W hW] at hmem
  rcases p with ⟨i, x⟩
  rw [List.enum_eq_enumFrom] at hmem
  have := (List.mk_mem_enumFrom_iff_le_and_getElem?_sub).mp hmem
  simpa using this.2

theorem splitGo_ne_nil {α : Type} (delta : Nat) (hd : 0 < delta) (fuel count : Nat)
    (t : α) (ts : List α) : splitGo delta (fuel + 1) count (t :: ts) ≠ [] := by
  rw [splitGo, if_neg hd.ne']
  simp

theorem splitGo_cons_eq {α : Type} (delta : Nat) (hd : 0 < delta) (fuel count : Nat)
    (t : α) (ts : List α) :
    splitGo delta (fuel + 1) count (t :: ts) =
      ((t :: ts).take delta).enum.map (fun p => (count + p.1, p.2)) ::
        splitGo delta fuel (count + min delta (ts.length + 1)) ((t :: ts).drop delta) := by
  rw [splitGo, if_neg hd.ne']
  simp

theorem splitGo_dropLast_parts {α : Type} (delta : Nat) (hd : 0 < delta) :
    ∀ (fuel : Nat) (l : List α) (count : Nat), l.length ≤ fuel →
      ∀ part ∈ (splitGo delta fuel count l).dropLast, part.length = delta := by
  intro fuel
  induction fuel with
  | zero =>
    intro l count h part hp
    rw [List.length_eq_zero.mp (Nat.le_zero.mp h), splitGo_nil] at hp
    simp at hp
  | succ fuel ih =>
    intro l count h part hp
    match l with
    | [] => rw [splitGo_nil] at hp; simp at hp
    | t :: ts =>
      rw [splitGo_cons_eq delta hd] at hp
      cases hE : (t :: ts).drop delta with
      | nil =>
        rw [hE, splitGo_nil] at hp
        simp at hp
      | cons d ds =>
        have hlendrop := congrArg List.length hE
        simp only [List.length_drop, List.length_cons] at hlendrop
        have hlen : delta < ts.length + 1 := by omega
        obtain ⟨f, rfl⟩ : ∃ f, fuel = f + 1 := by
          refine ⟨fuel - 1, ?_⟩
          simp only [List.length_cons] at h
          omega
        rw [hE] at hp
        rw [List.dropLast_cons_of_ne_nil (splitGo_ne_nil delta hd f _ d ds)] at hp
        rcases List.mem_cons.mp hp with hcase | hcase
        · subst hcase
          simp only [List.length_map, List.enum_length, List.length_take, List.length_cons]
          omega
        · refine ih (d :: ds) _ ?_ part hcase
          simp only [List.length_cons] at h ⊢
          omega

theorem split_dropLast_parts {α : Type} (l : List α) (W : Nat) (hW : 0 < W) :
    ∀ part ∈ (split l W).dropLast, part.length = (l.length + W - 1) / W := by
  match l with
  | [] => rw [split, splitGo_nil]; simp
  | t :: ts =>
    have hd : 0 < ((t :: ts).length + W - 1) / W :=
      Nat.div_pos (by simp only [List.length_cons]; omega) hW
    exact splitGo_dropLast_parts _ hd _ _ _ le_rfl

/-- C7 (amended): for every candidate list and every worker count `W ≥ 1`,
`split` produces at most `W` contiguous batches of `(global index, element)`
pairs whose concatenation is exactly the enumeration of the list — so each
partition's local-position → global-position map sends local position `j` to
the element's original global index; every batch is non-empty of size
`ceil(N/W)`, except the last batch, which may be shorter.  (The original
claim's partition count of exactly `W` whenever `N ≥ W`, with "possibly empty"
partitions for `N < W`, does not hold: see the counterexample.) -/
theorem C7_partitioner_amended {α : Type} (l : List α) (W : Nat) (hW : 0 < W) :
    (split l W).length ≤ W
    ∧ (split l W).flatten = l.enum
    ∧ (∀ part ∈ split l W, part ≠ [] ∧ part.length ≤ (l.length + W - 1) / W)
    ∧ (∀ part ∈ (split l W).dropLast, part.length = (l.length + W - 1) / W)
    ∧ (∀ part ∈ split l W, ∀ p ∈ part, l.get? p.1 = some p.2) :=
  ⟨split_length_le l W hW, split_flatten l W hW, split_parts l W hW,
    split_dropLast_parts l W hW, split_mem_get? l W hW⟩

/-- C7 witness: the amended statement instantiated at the list `range 5` with
4 workers. -/
theorem C7_partitioner_amended_witness :
    (0 : Nat) < 4
    ∧ ((split (List.range 5) 4).length ≤ 4
      ∧ (split (List.range 5) 4).flatten = (List.range 5).enum
      ∧ (∀ part ∈ split (List.range 5) 4, part ≠ []
          ∧ part.length ≤ ((List.range 5).length + 4 - 1) / 4)
      ∧ (∀ part ∈ (split (List.range 5) 4).dropLast,
          part.length = ((List.range 5).length + 4 - 1) / 4)
      ∧ (∀ part ∈ split (List.range 5) 4, ∀ p ∈ part, (List.range 5).get? p.1 = some p.2)) :=
  ⟨by decide, C7_partitioner_amended (List.range 5) 4 (by decide)⟩

/-- C7 counterexample: with `N = 5` candidates and `W = 4` workers (so
`N ≥ W`), `split` produces 3 partitions, not the claimed `W = 4`; and with
`N = 2 < W = 3` it produces two non-empty partitions — fewer partitions, none
of them empty. -/
theorem C7_counterexample :
    (split (List.range 5) 4).length = 3
    ∧ ¬((split (List.range 5) 4).length = 4)
    ∧ (split (List.range 2) 3).length = 2
    ∧ (∀ part ∈ split (List.range 2) 3, part ≠ []) := by decide

/-! ## C5: the per-character score formula -/

theorem beq_ofNat_zero_false {n : Nat} (h : n ≠ 0) : Q.beq (Q.ofNat n) Q.zero = false := by
  simp [Q.beq, Q.ofNat, Q.zero]
  omega

theorem pydiv_ok (a b : Q) (h : Q.beq b Q.zero = false) : pydiv a b = .ok (a.div b) := by
  simp [pydiv, h]

theorem scoreOneItem_ok (env : IcuEnv) (l1 l2 l3 : List Char) (needle item : String)
    (hn : needle.length ≠ 0) (hi : item.length ≠ 0) :
    scoreOneItem env l1 l2 l3 needle item =
      .ok (process_item ⟨l1, l2, l3,
        (((Q.ofInt 1).div (Q.ofNat item.length)).add
          ((Q.ofInt 1).div (Q.ofNat needle.length))).div (Q.ofNat 2), env⟩
        item.toList needle.toList) := by
  rw [scoreOneItem, pydiv_ok _ _ (beq_ofNat_zero_false hi),
    pydiv_ok _ _ (beq_ofNat_zero_false hn)]
  rfl

theorem mapM_scorer_ok (env : IcuEnv) (l1 l2 l3 : List Char) (needle : String)
    (hn : needle.length ≠ 0) :
    ∀ (items : List String), (∀ item ∈ items, item.length ≠ 0) →
      items.mapM (scoreOneItem env l1 l2 l3 needle) =
      .ok (items.map (fun item =>
        process_item ⟨l1, l2, l3,
          (((Q.ofInt 1).div (Q.ofNat item.length)).add
            ((Q.ofInt 1).div (Q.ofNat needle.length))).div (Q.ofNat 2), env⟩
          item.toList needle.toList))
  | [], _ => rfl
  | item :: items, h => by
    rw [List.mapM_cons]
    rw [scoreOneItem_ok env l1 l2 l3 needle item hn (h item (List.mem_cons_self item items))]
    rw [mapM_scorer_ok env l1 l2 l3 needle hn items
      (fun x hx => h x (List.mem_cons_of_mem item hx))]
    rfl

theorem PyScorer_call_ok (env : IcuEnv) (P : PyScorer) (needle : String)
    (hn : needle.length ≠ 0) (hitems : ∀ item ∈ P.items, item.length ≠ 0) :
    PyScorer.call env P needle = .ok (P.items.map (fun item =>
      process_item ⟨P.level1, P.level2, P.level3,
        (((Q.ofInt 1).div (Q.ofNat item.length)).add
          ((Q.ofInt 1).div (Q.ofNat needle.length))).div (Q.ofNat 2), env⟩
        item.toList needle.toList)) :=
  mapM_scorer_ok env P.level1 P.level2 P.level3 needle hn P.items hitems

/-- C5: the per-character score used by `process_item` equals the formula the
claim states (full `max_score_per_char` for `distance ≤ 1`, and otherwise
`max_score_per_char` times `0.9` / `0.8` / `0.7` / `(1/distance)·0.75`
according to the character preceding the match), and the scorer really runs
`process_item` with `max_score_per_char = ((1/len(haystack)) +
(1/len(query))) / 2`, recomputed per candidate. -/
theorem C5_per_char_score_formula :
    (∀ (ctx : Ctx) (hay : List Char) (pos last_idx : Nat),
      score_for_char ctx hay pos last_idx =
        specCharScore ctx.level1 ctx.level2 ctx.level3 ctx.icu.lower ctx.icu.upper
          ctx.max_score_per_char (hay.getD (pos - 1) ' ') (hay.getD pos ' ')
          ((pos : Int) - (last_idx : Int)))
    ∧ (∀ (env : IcuEnv) (P : PyScorer) (needle : String),
        needle.length ≠ 0 → (∀ item ∈ P.items, item.length ≠ 0) →
        PyScorer.call env P needle = .ok (P.items.map (fun item =>
          process_item ⟨P.level1, P.level2, P.level3,
            (((Q.ofInt 1).div (Q.ofNat item.length)).add
              ((Q.ofInt 1).div (Q.ofNat needle.length))).div (Q.ofNat 2), env⟩
          item.toList needle.toList))) := by
  constructor
  · intro ctx hay pos last_idx
    simp only [score_for_char, specCharScore, calc_score_for_char]
    split_ifs <;> rfl
  · exact PyScorer_call_ok

/-- C5 witness: the formula instantiated at a concrete context, and the
scorer equation at a concrete scorer and query. -/
theorem C5_per_char_score_formula_witness :
    (score_for_char ctxC1 "xa/axbxc/c".toList 5 1 =
      specCharScore ctxC1.level1 ctxC1.level2 ctxC1.level3 ctxC1.icu.lower ctxC1.icu.upper
        ctxC1.max_score_per_char ("xa/axbxc/c".toList.getD (5 - 1) ' ')
        ("xa/axbxc/c".toList.getD 5 ' ') ((5 : Int) - (1 : Nat)))
    ∧ ("a".length ≠ 0 ∧ (∀ item ∈ (PyScorer.init ["ab"]).items, item.length ≠ 0))
    ∧ PyScorer.call asciiIcu (PyScorer.init ["ab"]) "a" =
        .ok ((PyScorer.init ["ab"]).items.map (fun item =>
          process_item ⟨(PyScorer.init ["ab"]).level1, (PyScorer.init ["ab"]).level2,
            (PyScorer.init ["ab"]).level3,
            (((Q.ofInt 1).div (Q.ofNat item.length)).add
              ((Q.ofInt 1).div (Q.ofNat "a".length))).div (Q.ofNat 2), asciiIcu⟩
          item.toList "a".toList)) :=
  ⟨C5_per_char_score_formula.1 ctxC1 "xa/axbxc/c".toList 5 1,
   ⟨by decide, by decide⟩,
   C5_per_char_score_formula.2 asciiIcu (PyScorer.init ["ab"]) "a" (by decide) (by decide)⟩

/-! ## Lemmas about the ordered mapping -/

theorem odInsert_keys (key : String) (v : List Int) (m : List (String × List Int)) :
    (odInsert key v m).map Prod.fst =
      if m.any (fun p => p.1 == key) then m.map Prod.fst else m.map Prod.fst ++ [key] := by
  rw [odInsert]
  split_ifs with hmem
  · rw [List.map_map]
    apply List.map_congr_left
    intro p _
    by_cases hpk : p.1 == key
    · simp only [Function.comp_apply, if_pos hpk]
      exact (beq_iff_eq.mp hpk).symm
    · simp only [Function.comp_apply, if_neg hpk]
  · rw [List.map_append]
    rfl

theorem odInsert_keys_nodup (key : String) (v : List Int) (m : List (String × List Int))
    (h : (m.map Prod.fst).Nodup) : ((odInsert key v m).map Prod.fst).Nodup := by
  rw [odInsert_keys]
  split_ifs with hmem
  · exact h
  · refine List.Nodup.append h (List.nodup_singleton key) ?_
    intro x hx hk
    have hxk : x = key := List.mem_singleton.mp hk
    rcases List.mem_map.mp hx with ⟨p, hp, hfst⟩
    exact hmem (List.any_eq_true.mpr ⟨p, hp, beq_iff_eq.mpr (hfst.trans hxk)⟩)

theorem odFromPairs_go_keys_nodup :
    ∀ (l : List (String × List Int)) (acc : List (String × List Int)),
      (acc.map Prod.fst).Nodup →
      ((l.foldl (fun m p => odInsert p.1 p.2 m) acc).map Prod.fst).Nodup
  | [], _, h => h
  | p :: l, acc, h =>
    odFromPairs_go_keys_nodup l (odInsert p.1 p.2 acc) (odInsert_keys_nodup p.1 p.2 acc h)

theorem odFromPairs_keys_nodup (l : List (String × List Int)) :
    ((odFromPairs l).map Prod.fst).Nodup :=
  odFromPairs_go_keys_nodup l [] (by simp)

theorem odInsert_length_le (key : String) (v : List Int) (m : List (String × List Int)) :
    (odInsert key v m).length ≤ m.length + 1 := by
  rw [odInsert]
  split_ifs <;> simp

theorem odFromPairs_go_length_le :
    ∀ (l : List (String × List Int)) (acc : List (String × List Int)),
      (l.foldl (fun m p => odInsert p.1 p.2 m) acc).length ≤ acc.length + l.length
  | [], acc => le_rfl
  | p :: l, acc => by
    have h1 := odFromPairs_go_length_le l (odInsert p.1 p.2 acc)
    have h2 := odInsert_length_le p.1 p.2 acc
    simp only [List.foldl_cons, List.length_cons]
    omega

theorem odFromPairs_length_le (l : List (String × List Int)) :
    (odFromPairs l).length ≤ l.length := by
  have := odFromPairs_go_length_le l []
  simpa [odFromPairs] using this

theorem odInsert_keys_sub (key : String) (v : List Int) (m : List (String × List Int)) :
    ∀ x ∈ (odInsert key v m).map Prod.fst, x ∈ key :: m.map Prod.fst := by
  intro x hx
  rw [odInsert_keys] at hx
  split_ifs at hx with hmem
  · exact List.mem_cons_of_mem key hx
  · rcases List.mem_append.mp hx with h | h
    · exact List.mem_cons_of_mem key h
    · rcases List.mem_singleton.mp h with rfl
      exact List.mem_cons_self x _

theorem odFromPairs_go_keys_sub :
    ∀ (l : List (String × List Int)) (acc : List (String × List Int)),
      ∀ x ∈ ((l.foldl (fun m p => odInsert p.1 p.2 m) acc).map Prod.fst),
        x ∈ acc.map Prod.fst ∨ x ∈ l.map Prod.fst
  | [], acc, x, hx => Or.inl hx
  | p :: l, acc, x, hx => by
    rcases odFromPairs_go_keys_sub l (odInsert p.1 p.2 acc) x hx with h | h
    · rcases List.mem_cons.mp (odInsert_keys_sub p.1 p.2 acc x h) with rfl | h2
      · exact Or.inr (by simp)
      · exact Or.inl h2
    · exact Or.inr (List.mem_cons_of_mem _ h)

theorem odFromPairs_keys_sub (l : List (String × List Int)) :
    ∀ x ∈ (odFromPairs l).map Prod.fst, x ∈ l.map Prod.fst := by
  intro x hx
  rcases odFromPairs_go_keys_sub l [] x hx with h | h
  · simp at h
  · exact h

/-! ## C3: limit truncation before zero filtering -/

/-- C3: with `limit = k` the ranked tuple list is truncated to its first `k`
entries before the zero-score entries are removed — the returned mapping is
the ordered dictionary of the zero-filtered top-`k` of the score-sorted
candidates and has at most `k` entries; and (concrete part) the result can
have fewer than `k` entries even when more than `k` candidates score
non-zero, because duplicate candidate strings inside the top-`k` collapse
into one mapping entry: for the matcher over `["a", "a", "ax", "ay"]` all 4
candidates score non-zero against `"a"`, yet `limit = 2` returns the single
entry `("a", [0])`. -/
theorem C3_limit_truncates_before_zero_filter :
    (∀ (items : List String) (sc : Nat → Option Q) (pos : Nat → Option (List Int)) (k : Nat),
      finalize items sc pos (some k) =
        odFromPairs ((((pySorted (scoredTuples items sc pos)).take k).filter
          (fun t => !(Q.beq t.1 Q.zero))).map (fun t => (t.2.1, t.2.2)))
      ∧ (finalize items sc pos (some k)).length ≤ k)
    ∧ ((Matcher.call plainEnv mdDup ⟨none⟩ "a" (some 2)
          (List.range mdDup.task_maps.length)).1 = .ok [("a", [0])]
      ∧ ((List.range mdDup.items.length).filter (fun j =>
          match specScore plainEnv mdDup "a" j with
          | some s => !(Q.beq s Q.zero)
          | none => false)).length = 4
      ∧ [("a", ([0] : List Int))].length < 2 ∧ 2 < 4) := by
  constructor
  · intro items sc pos k
    constructor
    · rfl
    · calc (finalize items sc pos (some k)).length
          ≤ ((((truncateTo (some k) (pySorted (scoredTuples items sc pos)))).filter
              (fun t => !(Q.beq t.1 Q.zero))).map (fun t => (t.2.1, t.2.2))).length :=
            odFromPairs_length_le _
        _ ≤ (truncateTo (some k) (pySorted (scoredTuples items sc pos))).length := by
            rw [List.length_map]; exact List.length_filter_le _ _
        _ ≤ k := by simp [truncateTo]
  · exact ⟨by decide, by decide, by decide, by decide⟩

/-! ## C9: duplicate candidate strings -/

/-- C9: the returned mapping is keyed by candidate string, so it has exactly
one entry per string even when a string occurs several times in the candidate
list; concretely, for the matcher over `["a", "a", "ax", "ay"]` and query
`"a"` with `limit = 2`, the two occurrences of `"a"` each score and occupy
both slots of the score-sorted truncated list, yet the mapping has the single
entry `("a", [0])` — fewer entries than the 4 candidates with non-zero
score. -/
theorem C9_duplicates_collapse_to_one_entry :
    (∀ (items : List String) (sc : Nat → Option Q) (pos : Nat → Option (List Int))
        (k : Option Nat), ((finalize items sc pos k).map Prod.fst).Nodup)
    ∧ ((truncateTo (some 2) (pySorted (scoredTuples mdDup.items
          (specScore plainEnv mdDup "a") (specPositions plainEnv mdDup "a")))).map
            (fun t => t.2.1) = ["a", "a"]
      ∧ (Matcher.call plainEnv mdDup ⟨none⟩ "a" (some 2)
          (List.range mdDup.task_maps.length)).1 = .ok [("a", [0])]
      ∧ ((List.range mdDup.items.length).filter (fun j =>
          match specScore plainEnv mdDup "a" j with
          | some s => !(Q.beq s Q.zero)
          | none => false)).length = 4) := by
  refine ⟨fun items sc pos k => odFromPairs_keys_nodup _, by decide, by decide, by decide⟩

/-! ## Lemmas about the collection loop -/

theorem collectLoop_error (tm : List (List (Nat × Nat))) :
    ∀ (msgs : List WMsg) (sp : Tables) (err : Option String),
      (∃ t e, WMsg.ok t (.error e) ∈ msgs) →
      collectLoop tm msgs sp err = .error .zeroDivision
  | [], _, _, h => by
    rcases h with ⟨t, e, hmem⟩
    simp at hmem
  | .fail m :: rest, sp, err, h => by
    rcases h with ⟨t, e, hmem⟩
    rcases List.mem_cons.mp hmem with hc | hc
    · exact absurd hc (by simp)
    · exact collectLoop_error tm rest sp (some m) ⟨t, e, hc⟩
  | .ok tasknum gen :: rest, sp, err, h => by
    match gen with
    | .error e => cases e; rfl
    | .ok vals =>
      rcases h with ⟨t, e, hmem⟩
      rcases List.mem_cons.mp hmem with hc | hc
      · exact absurd hc (by simp)
      · exact collectLoop_error tm rest _ err ⟨t, e, hc⟩

theorem collectLoop_no_fail_err (tm : List (List (Nat × Nat))) :
    ∀ (msgs : List WMsg) (sp : Tables) (sp' : Tables) (e' : Option String),
      (∀ m ∈ msgs, ∀ s, m ≠ .fail s) →
      collectLoop tm msgs sp none = .ok (sp', e') → e' = none
  | [], sp, sp', e', _, h => by
    simp [collectLoop] at h
    exact h.2.symm
  | .fail m :: rest, sp, sp', e', hnf, h =>
    absurd rfl (hnf (.fail m) (List.mem_cons_self _ _) m)
  | .ok tasknum gen :: rest, sp, sp', e', hnf, h => by
    match gen with
    | .error e => simp [collectLoop] at h
    | .ok vals =>
      exact collectLoop_no_fail_err tm rest _ sp' e'
        (fun m hm s => hnf m (List.mem_cons_of_mem _ hm) s) h

theorem collectLoop_all_ok (tm : List (List (Nat × Nat))) :
    ∀ (msgs : List WMsg) (sp : Tables) (err : Option String),
      (∀ m ∈ msgs, ∃ t vals, m = WMsg.ok t (.ok vals)) →
      collectLoop tm msgs sp err =
        .ok (msgs.foldl (fun sp m =>
          match m with
          | WMsg.ok t (.ok vals) => applyVals (tm.getD t []) vals sp
          | _ => sp) sp, err)
  | [], _, _, _ => rfl
  | .fail m :: rest, sp, err, h =>
    absurd (h (.fail m) (List.mem_cons_self _ _)) (by simp)
  | .ok tasknum gen :: rest, sp, err, h => by
    match gen with
    | .error e =>
      exact absurd (h (.ok tasknum (.error e)) (List.mem_cons_self _ _)) (by simp)
    | .ok vals =>
      exact collectLoop_all_ok tm rest _ err
        (fun m hm => h m (List.mem_cons_of_mem _ hm))

theorem beq_ofNat_zero_true {n : Nat} (h : n = 0) : Q.beq (Q.ofNat n) Q.zero = true := by
  subst h; decide

theorem scoreOneItem_err_of_empty_needle (env : IcuEnv) (l1 l2 l3 : List Char)
    (needle item : String) (hn : needle.length = 0) :
    scoreOneItem env l1 l2 l3 needle item = .error .zeroDivision := by
  rw [scoreOneItem]
  by_cases hi : item.length = 0
  · rw [show pydiv (Q.ofInt 1) (Q.ofNat item.length) = .error .zeroDivision by
      simp [pydiv, beq_ofNat_zero_true hi]]
    rfl
  · rw [pydiv_ok _ _ (beq_ofNat_zero_false hi)]
    rw [show pydiv (Q.ofInt 1) (Q.ofNat needle.length) = .error .zeroDivision by
      simp [pydiv, beq_ofNat_zero_true hn]]
    rfl

theorem PyScorer_call_err_of_empty_needle (env : IcuEnv) (P : PyScorer) (needle : String)
    (hne : P.items ≠ []) (hn : needle.length = 0) :
    PyScorer.call env P needle = .error .zeroDivision := by
  rw [PyScorer.call]
  match hI : P.items with
  | [] => exact absurd hI hne
  | item :: rest =>
    rw [List.mapM_cons, scoreOneItem_err_of_empty_needle env _ _ _ needle item hn]
    rfl

theorem scorers_getD_nonempty (env : MatcherEnv) (W : Nat) (items0 : List String)
    (hW : 0 < W) (i : Nat) (hi : i < (Matcher.init env W items0).task_maps.length) :
    ((Matcher.init env W items0).scorers.getD i (PyScorer.init [])).items ≠ [] := by
  have hlen : i < (split ((items0.filter (fun x => x != "")).map env.nfc) W).length := by
    simpa [Matcher.init] using hi
  have hget : (Matcher.init env W items0).scorers.getD i (PyScorer.init []) =
      PyScorer.init (((split ((items0.filter (fun x => x != "")).map env.nfc) W).get
        ⟨i, hlen⟩).map Prod.snd) := by
    simp [Matcher.init, List.getD, List.getElem?_eq_getElem hlen]
  rw [hget]
  have hpart := split_parts ((items0.filter (fun x => x != "")).map env.nfc) W hW
    _ (List.get_mem (split ((items0.filter (fun x => x != "")).map env.nfc) W) i hlen)
  intro hcon
  simp only [PyScorer.init] at hcon
  exact hpart.1 (List.map_eq_nil_iff.mp hcon)

/-! ## C10: empty query raises ZeroDivisionError uncaught -/

/-- C10: for a matcher with at least one surviving candidate and the
reference scorer, the empty query reaches the unguarded `1.0 / len(needle)`
while the orchestrator consumes the generator, so the resulting
`ZeroDivisionError` propagates uncaught out of `__call__`: it is neither
captured as a worker failure nor converted into the aggregated
`Failed to score items` error. -/
theorem C10_empty_query_uncaught_zero_division (env : MatcherEnv) (W : Nat)
    (items0 : List String) (ms : MState) (limit : Option Nat) (arrival : List Nat)
    (hW : 0 < W) (hnfc : env.nfc "" = "")
    (harr : ∃ i ∈ arrival, i < (Matcher.init env W items0).task_maps.length) :
    (Matcher.call env (Matcher.init env W items0) ms "" limit arrival).1 =
      .error (.uncaught .zeroDivision) := by
  obtain ⟨i, hiarr, hilt⟩ := harr
  have hmsg : WMsg.ok i (.error PyErr.zeroDivision) ∈
      arrival.map (fun j => Worker.runJob env.icu
        (j, (Matcher.init env W items0).scorers.getD j (PyScorer.init []), env.nfc "")) := by
    refine List.mem_map.mpr ⟨i, hiarr, ?_⟩
    rw [Worker.runJob]
    rw [PyScorer_call_err_of_empty_needle env.icu _ (env.nfc "")
      (scorers_getD_nonempty env W items0 hW i hilt) (by rw [hnfc]; rfl)]
  simp only [Matcher.call]
  rw [collectLoop_error _ _ _ _ ⟨i, PyErr.zeroDivision, hmsg⟩]

/-- C10 witness: the concrete matcher over `["xy"]` queried with the empty
string. -/
theorem C10_empty_query_uncaught_zero_division_witness :
    ((0 : Nat) < 1 ∧ plainEnv.nfc "" = ""
      ∧ (∃ i ∈ [0], i < (Matcher.init plainEnv 1 ["xy"]).task_maps.length))
    ∧ (Matcher.call plainEnv (Matcher.init plainEnv 1 ["xy"]) ⟨none⟩ "" none [0]).1 =
        .error (.uncaught .zeroDivision) :=
  ⟨⟨by decide, rfl, by decide⟩,
    C10_empty_query_uncaught_zero_division plainEnv 1 ["xy"] ⟨none⟩ none [0]
      (by decide) rfl (by decide)⟩

/-! ## C2: the worker pushes lazy generators, never failures -/

/-- C2 (amended): `Worker.run` pushes, for every job, the success message
`(True, (partition identifier, scorer-generator))` without consuming the
generator — the scorer runs only when the orchestrator iterates the result,
so the worker-boundary `try/except` never captures a scoring exception and
`Matcher.__call__` never raises the aggregated failure for a scoring error:
every call either returns a mapping or raises an exception that propagated
uncaught out of the result-consumption loop. -/
theorem C2_worker_pushes_lazy_generator :
    (∀ (env : IcuEnv) (job : Nat × PyScorer × String),
      Worker.runJob env job = .ok job.1 (PyScorer.call env job.2.1 job.2.2))
    ∧ (∀ (env : MatcherEnv) (md : MatcherData) (ms : MState) (q : String)
        (limit : Option Nat) (arrival : List Nat),
        (∃ e, (Matcher.call env md ms q limit arrival).1 = .error (.uncaught e))
        ∨ (∃ out, (Matcher.call env md ms q limit arrival).1 = .ok out)) := by
  constructor
  · intro env job; rfl
  · intro env md ms q limit arrival
    simp only [Matcher.call]
    match hcol : collectLoop md.task_maps (arrival.map (fun i => Worker.runJob env.icu
        (i, md.scorers.getD i (PyScorer.init []), env.nfc q)))
        ((fun _ => none), (fun _ => none)) none with
    | .error e => exact Or.inl ⟨e, rfl⟩
    | .ok (sp, e') =>
      have he' : e' = none := by
        refine collectLoop_no_fail_err md.task_maps _ _ sp e' ?_ hcol
        intro m hm s
        rcases List.mem_map.mp hm with ⟨j, _, rfl⟩
        simp [Worker.runJob]
      subst he'
      exact Or.inr ⟨_, rfl⟩

/-- C2 counterexample: for the matcher over `["xy"]` and the empty query, the
worker pushes `(True, (0, generator))` whose consumption raises
`ZeroDivisionError` — not `(False, error)` and not a materialized list — and
the query call raises the uncaught exception instead of the aggregated
`Failed to score items` error. -/
theorem C2_counterexample :
    Worker.runJob asciiIcu (0, mdXY.scorers.getD 0 (PyScorer.init []), "") =
      .ok 0 (.error .zeroDivision)
    ∧ (Matcher.call plainEnv mdXY ⟨none⟩ "" none [0]).1 =
        .error (.uncaught .zeroDivision) := by
  exact ⟨by decide, by decide⟩

/-! ## Lemmas about the stable sort -/

theorem Q.le_total' (a b : Q) : Q.le a b ∨ Q.le b a :=
  Int.le_total (a.num * (b.den : Int)) (b.num * (a.den : Int))

theorem Q.le_trans' {a b c : Q} (h1 : Q.le a b) (h2 : Q.le b c) : Q.le a c := by
  have hbd : (0 : Int) < (b.den : Int) := by exact_mod_cast b.dpos
  have had : (0 : Int) ≤ (a.den : Int) := Int.natCast_nonneg a.den
  have hcd : (0 : Int) ≤ (c.den : Int) := Int.natCast_nonneg c.den
  rw [Q.le] at h1 h2 ⊢
  have h3 : a.num * (c.den : Int) * (b.den : Int) ≤ c.num * (a.den : Int) * (b.den : Int) := by
    nlinarith [mul_le_mul_of_nonneg_right h1 hcd, mul_le_mul_of_nonneg_right h2 had]
  exact le_of_mul_le_mul_right h3 hbd

theorem tupleLE_trans (a b c : Q × String × List Int)
    (h1 : tupleLE a b = true) (h2 : tupleLE b c = true) : tupleLE a c = true := by
  rw [tupleLE, decide_eq_true_iff] at h1 h2 ⊢
  exact Q.le_trans' h1 h2

theorem tupleLE_total (a b : Q × String × List Int) :
    tupleLE a b = true ∨ tupleLE b a = true := by
  rw [tupleLE, tupleLE, decide_eq_true_iff, decide_eq_true_iff]
  exact Q.le_total' a.1 b.1

theorem stableInsert_perm {α : Type} (le : α → α → Bool) (x : α) :
    ∀ (l : List α), List.Perm (stableInsert le x l) (x :: l)
  | [] => List.Perm.refl _
  | y :: ys => by
    simp only [stableInsert]
    split_ifs with h
    · exact ((stableInsert_perm le x ys).cons y).trans (List.Perm.swap x y ys)
    · exact List.Perm.refl _

theorem mem_stableInsert {α : Type} (le : α → α → Bool) (x z : α) (l : List α) :
    z ∈ stableInsert le x l ↔ z = x ∨ z ∈ l := by
  rw [(stableInsert_perm le x l).mem_iff, List.mem_cons]

theorem stableInsert_pairwise {α : Type} (le : α → α → Bool)
    (htrans : ∀ a b c, le a b = true → le b c = true → le a c = true)
    (htotal : ∀ a b, le a b = true ∨ le b a = true) (x : α) :
    ∀ (l : List α), l.Pairwise (fun a b => le a b = true) →
      (stableInsert le x l).Pairwise (fun a b => le a b = true)
  | [], _ => List.pairwise_singleton _ x
  | y :: ys, h => by
    simp only [stableInsert]
    rcases List.pairwise_cons.mp h with ⟨hy, hys⟩
    split_ifs with hcmp
    · refine List.pairwise_cons.mpr ⟨?_, stableInsert_pairwise le htrans htotal x ys hys⟩
      intro z hz
      rcases (mem_stableInsert le x z ys).mp hz with rfl | hz2
      · exact hcmp
      · exact hy z hz2
    · have hxy : le x y = true := (htotal x y).resolve_right (fun hc => hcmp hc)
      refine List.pairwise_cons.mpr ⟨?_, h⟩
      intro z hz
      rcases List.mem_cons.mp hz with rfl | hz2
      · exact hxy
      · exact htrans x y z hxy (hy z hz2)

theorem stableSort_go_pairwise {α : Type} (le : α → α → Bool)
    (htrans : ∀ a b c, le a b = true → le b c = true → le a c = true)
    (htotal : ∀ a b, le a b = true ∨ le b a = true) :
    ∀ (l acc : List α), acc.Pairwise (fun a b => le a b = true) →
      (l.foldl (fun a x => stableInsert le x a) acc).Pairwise (fun a b => le a b = true)
  | [], _, h => h
  | x :: xs, acc, h =>
    stableSort_go_pairwise le htrans htotal xs (stableInsert le x acc)
      (stableInsert_pairwise le htrans htotal x acc h)

theorem stableSort_pairwise {α : Type} (le : α → α → Bool)
    (htrans : ∀ a b c, le a b = true → le b c = true → le a c = true)
    (htotal : ∀ a b, le a b = true ∨ le b a = true) (l : List α) :
    (stableSort le l).Pairwise (fun a b => le a b = true) :=
  stableSort_go_pairwise le htrans htotal l [] List.Pairwise.nil

theorem map_snd_stableInsert {α : Type} (le : α → α → Bool) (i : Nat) (x : α) :
    ∀ (accE : List (Nat × α)), (∀ p ∈ accE, p.1 < i) →
      (stableInsert (lexLE le) (i, x) accE).map Prod.snd =
        stableInsert le x (accE.map Prod.snd)
  | [], _ => rfl
  | (j, y) :: rest, h => by
    have hj : j < i := h (j, y) (List.mem_cons_self _ _)
    have hcond : lexLE le (j, y) (i, x) = le y x := by
      cases hyx : le y x <;> cases hxy : le x y <;>
        simp [lexLE, hyx, hxy, Nat.le_of_lt hj]
    simp only [stableInsert]
    rw [hcond]
    split_ifs with hcmp
    · simp only [List.map_cons]
      rw [map_snd_stableInsert le i x rest (fun p hp => h p (List.mem_cons_of_mem _ hp))]
    · rfl

theorem map_snd_stableSort_go {α : Type} (le : α → α → Bool) :
    ∀ (l : List α) (k : Nat) (accE : List (Nat × α)) (acc : List α),
      accE.map Prod.snd = acc → (∀ p ∈ accE, p.1 < k) →
      ((l.enumFrom k).foldl (fun a p => stableInsert (lexLE le) p a) accE).map Prod.snd =
        l.foldl (fun a x => stableInsert le x a) acc
  | [], _, _, _, hmap, _ => hmap
  | x :: xs, k, accE, acc, hmap, hidx => by
    rw [List.enumFrom_cons]
    simp only [List.foldl_cons]
    refine map_snd_stableSort_go le xs (k + 1) _ _ ?_ ?_
    · rw [map_snd_stableInsert le k x accE hidx, hmap]
    · intro p hp
      rcases (mem_stableInsert (lexLE le) (k, x) p accE).mp hp with rfl | hp2
      · exact Nat.lt_succ_self k
      · exact Nat.lt_succ_of_lt (hidx p hp2)

theorem stableSort_eq_map_snd_enum {α : Type} (le : α → α → Bool) (l : List α) :
    stableSort le l = (stableSort (lexLE le) l.enum).map Prod.snd := by
  rw [stableSort, stableSort, List.enum_eq_enumFrom]
  exact (map_snd_stableSort_go le l 0 [] [] rfl (by simp)).symm

/-! ## C4: ranking is by descending score only, stable -/

theorem call_output_ignores_sortkey_and_cache (icu : IcuEnv) (nfc : String → String)
    (sk1 sk2 : String → List Nat) (md : MatcherData) (ms1 ms2 : MState) (q : String)
    (limit : Option Nat) (arrival : List Nat) :
    (Matcher.call ⟨icu, nfc, sk1⟩ md ms1 q limit arrival).1 =
      (Matcher.call ⟨icu, nfc, sk2⟩ md ms2 q limit arrival).1 := by
  simp only [Matcher.call]
  match hcol : collectLoop md.task_maps (arrival.map (fun i => Worker.runJob icu
      (i, md.scorers.getD i (PyScorer.init []), nfc q)))
      ((fun _ => none), (fun _ => none)) none with
  | .error e => rfl
  | .ok (sp, some msg) => rfl
  | .ok (sp, none) => rfl

/-- C4: the ranked tuple list is sorted by the single key of line 140 (the
negated score — so scores descend), with a stable sort: it equals the
projection of the sort of the enumerated tuples under the
key-then-original-position lexicographic order, so candidates with equal
score keep their original relative order; and the query output is unchanged
under any locale sort key function and any state of the `sort_keys` cache —
the cached key never influences the ordering. -/
theorem C4_sort_by_descending_score_stable :
    (∀ (l : List (Q × String × List Int)),
      (pySorted l).Pairwise (fun a b => tupleLE a b = true)
      ∧ pySorted l = (stableSort (lexLE tupleLE) l.enum).map Prod.snd)
    ∧ (∀ (icu : IcuEnv) (nfc : String → String) (sk1 sk2 : String → List Nat)
        (md : MatcherData) (ms1 ms2 : MState) (q : String) (limit : Option Nat)
        (arrival : List Nat),
        (Matcher.call ⟨icu, nfc, sk1⟩ md ms1 q limit arrival).1 =
          (Matcher.call ⟨icu, nfc, sk2⟩ md ms2 q limit arrival).1) := by
  refine ⟨fun l => ⟨?_, ?_⟩, call_output_ignores_sortkey_and_cache⟩
  · exact stableSort_pairwise tupleLE tupleLE_trans tupleLE_total l
  · exact stableSort_eq_map_snd_enum tupleLE l

/-! ## Lemmas about subsequence matching -/

theorem SubseqBy.prepend_hay {peq : Char → Char → Bool} {b l2 : List Char} (h : SubseqBy peq b l2) :
    ∀ (l1 : List Char), SubseqBy peq b (l1 ++ l2)
  | [] => h
  | c :: l1 => .skip c (h.prepend_hay l1)

theorem SubseqBy.append {peq : Char → Char → Bool} :
    ∀ {a l1 b l2 : List Char}, SubseqBy peq a l1 → SubseqBy peq b l2 →
      SubseqBy peq (a ++ b) (l1 ++ l2)
  | _, l1, _, _, .nil _, h2 => h2.prepend_hay l1
  | _, _, _, _, .cons hpeq hsub, h2 => .cons hpeq (hsub.append h2)
  | _, _, _, _, .skip c hsub, h2 => .skip c (hsub.append h2)

theorem SubseqBy.append_right {peq : Char → Char → Bool} {a l : List Char}
    (h : SubseqBy peq a l) (l2 : List Char) : SubseqBy peq a (l ++ l2) := by
  have := h.append (.nil l2)
  rwa [List.append_nil] at this

theorem SubseqBy.of_take {peq : Char → Char → Bool} {a l : List Char} {h : Nat}
    (hs : SubseqBy peq a (l.take h)) : SubseqBy peq a l := by
  have := hs.append_right (l.drop h)
  rwa [List.take_append_drop] at this

theorem SubseqBy.take_mono {peq : Char → Char → Bool} {a l : List Char} {h h2 : Nat}
    (hs : SubseqBy peq a (l.take h)) (hle : h ≤ h2) : SubseqBy peq a (l.take h2) := by
  have heq : h2 = h + (h2 - h) := by omega
  rw [heq, List.take_add]
  exact hs.append_right _

theorem SubseqBy.cons_of_get {peq : Char → Char → Bool} {n : Char} {ns : List Char} :
    ∀ (p : Nat) (l : List Char) (hp : p < l.length),
      peq n (l.get ⟨p, hp⟩) = true → SubseqBy peq ns (l.drop (p + 1)) →
      SubseqBy peq (n :: ns) l
  | 0, c :: l, _, hpeq, htail => .cons hpeq htail
  | p + 1, c :: l, hp, hpeq, htail =>
    .skip c (SubseqBy.cons_of_get p l (by simpa using hp) hpeq htail)

theorem SubseqBy.tail_needle {peq : Char → Char → Bool} :
    ∀ {n : Char} {ns hs : List Char}, SubseqBy peq (n :: ns) hs → SubseqBy peq ns hs
  | _, _, _, .cons _ hsub => .skip _ hsub
  | _, _, _, .skip c hsub => .skip c hsub.tail_needle

theorem isSubseqBy_of_SubseqBy {peq : Char → Char → Bool} :
    ∀ (hs ns : List Char), SubseqBy peq ns hs → isSubseqBy peq ns hs = true
  | _, [], _ => by rw [isSubseqBy]
  | [], n :: ns, h => by cases h
  | c :: hs, n :: ns, h => by
    rw [isSubseqBy]
    split_ifs with hpeq
    · cases h with
      | cons _ hsub => exact isSubseqBy_of_SubseqBy hs ns hsub
      | skip _ hsub => exact isSubseqBy_of_SubseqBy hs ns hsub.tail_needle
    · cases h with
      | cons hp _ => exact absurd hp hpeq
      | skip _ hsub => exact isSubseqBy_of_SubseqBy hs (n :: ns) hsub

theorem primary_find_spec (env : IcuEnv) (n : Char) (l : List Char)
    (h : primary_find env n l ≠ -1) :
    ∃ j : Nat, primary_find env n l = (j : Int) ∧ j < l.length
      ∧ env.peq n (l.getD j ' ') = true := by
  rw [primary_find] at h ⊢
  match hF : l.findIdx? (fun c => env.peq n c) with
  | none => rw [hF] at h; exact absurd rfl h
  | some j =>
    obtain ⟨hjl, hp, _⟩ := List.findIdx?_eq_some_iff_getElem.mp hF
    refine ⟨j, rfl, hjl, ?_⟩
    rw [List.getD_eq_getElem?_getD, List.getElem?_eq_getElem hjl]
    exact hp

theorem chainFrom_sound (ctx : Ctx) (hay needle : List Char) :
    ∀ (fuel : Nat), ∀ (i hidx last : Nat) (score : Q) (posns : List Int),
      needle.length ≤ fuel + i →
      SubseqBy ctx.icu.peq (needle.take i) (hay.take hidx) →
      ((Q.lt Q.zero (chainFrom ctx hay needle fuel i hidx last score posns).1.1 →
          SubseqBy ctx.icu.peq needle hay)
        ∧ ∀ st ∈ (chainFrom ctx hay needle fuel i hidx last score posns).2,
            SubseqBy ctx.icu.peq (needle.take st.nidx) (hay.take st.hidx)) := by
  intro fuel
  induction fuel with
  | zero =>
    intro i hidx last score posns hle hpre
    rw [List.take_of_length_le (by omega)] at hpre
    exact ⟨fun _ => hpre.of_take, fun st hst => by simp [chainFrom] at hst⟩
  | succ fuel ih =>
    intro i hidx last score posns hle hpre
    have hz : ¬ Q.lt Q.zero Q.zero := by decide
    simp only [chainFrom]
    split_ifs with h1 h2
    · exact ⟨fun hlt => absurd hlt hz, fun st hst => by simp at hst⟩
    · exact ⟨fun hlt => absurd hlt hz, fun st hst => by simp at hst⟩
    · obtain ⟨j, hjeq, hjlen, hjpeq⟩ :=
        primary_find_spec ctx.icu (needle.getD i ' ') (hay.drop hidx) h2
      rw [hjeq]
      simp only [Int.toNat_ofNat]
      have hidxle : hidx ≤ j + hidx + 1 := by omega
      have hpre2 : SubseqBy ctx.icu.peq (needle.take (i + 1)) (hay.take (j + hidx + 1)) := by
        by_cases hi : i < needle.length
        · rw [List.take_succ, List.getElem?_eq_getElem hi]
          have htk : hay.take (j + hidx + 1) =
              hay.take hidx ++ (hay.drop hidx).take (j + 1) := by
            rw [← List.take_add]
            congr 1
            omega
          rw [htk]
          refine hpre.append ?_
          have hjlen2 : j < ((hay.drop hidx).take (j + 1)).length := by
            simp only [List.length_take, List.length_drop]
            simp only [List.length_drop] at hjlen
            omega
          refine SubseqBy.cons_of_get j _ hjlen2 ?_ (.nil _)
          · have hget : ((hay.drop hidx).take (j + 1)).get ⟨j, hjlen2⟩ =
                (hay.drop hidx).get ⟨j, hjlen⟩ := by
              simp [List.getElem_take]
            rw [hget]
            have hgd : (hay.drop hidx).getD j ' ' = (hay.drop hidx).get ⟨j, hjlen⟩ := by
              simp [List.getD_eq_getElem?_getD, List.getElem?_eq_getElem hjlen]
            rw [hgd] at hjpeq
            have hnd : needle[i] = needle.getD i ' ' := by
              simp [List.getD_eq_getElem?_getD, List.getElem?_eq_getElem hi]
            simpa [Option.toList, hnd] using hjpeq
        · rw [List.take_of_length_le (by omega : needle.length ≤ i)] at hpre
          rw [List.take_of_length_le (by omega : needle.length ≤ i + 1)]
          exact hpre.take_mono hidxle
      have hrec := ih (i + 1) (j + hidx + 1) (j + hidx)
        (score.add (score_for_char ctx hay (j + hidx) last))
        (posns.set i ((j + hidx : Nat) : Int)) (by omega) hpre2
      refine ⟨hrec.1, fun st hst => ?_⟩
      rcases List.mem_cons.mp hst with rfl | hst2
      · exact hpre.take_mono hidxle
      · exact hrec.2 st hst2

theorem Q.lt_trans' {a b c : Q} (h1 : Q.lt a b) (h2 : Q.lt b c) : Q.lt a c := by
  have hbd : (0 : Int) < (b.den : Int) := by exact_mod_cast b.dpos
  have had : (0 : Int) < (a.den : Int) := by exact_mod_cast a.dpos
  have hcd : (0 : Int) < (c.den : Int) := by exact_mod_cast c.dpos
  rw [Q.lt] at h1 h2 ⊢
  have h3 : a.num * (c.den : Int) * (b.den : Int) < c.num * (a.den : Int) * (b.den : Int) := by
    nlinarith [mul_lt_mul_of_pos_right h1 hcd, mul_lt_mul_of_pos_right h2 had]
  exact lt_of_mul_lt_mul_right h3 (le_of_lt hbd)

theorem lookup_mem' {α β : Type} [BEq α] :
    ∀ (l : List (α × β)) (k : α) (v : β), l.lookup k = some v → ∃ k2, (k2, v) ∈ l := by
  intro l
  induction l with
  | nil => intro k v h; simp [List.lookup] at h
  | cons p l ih =>
    intro k v h
    obtain ⟨k1, v1⟩ := p
    rw [List.lookup] at h
    by_cases hk : (k == k1) = true
    · rw [hk] at h
      refine ⟨k1, ?_⟩
      simp only [Option.some.injEq] at h
      rw [h]
      exact List.mem_cons_self _ _
    · rw [Bool.not_eq_true] at hk
      rw [hk] at h
      obtain ⟨k2, hm⟩ := ih k v h
      exact ⟨k2, List.mem_cons_of_mem _ hm⟩

theorem updBest_pos {C : Prop} {best : Q × List Int} {score : Q} {positions : List Int}
    (hb : Q.lt Q.zero best.1 → C) (hs : Q.lt Q.zero score → C) :
    Q.lt Q.zero (updBest best score positions).1 → C := by
  rw [updBest]
  split
  · exact hs
  · exact hb

theorem updBest_zero_or_pos {best : Q × List Int} {score : Q} {positions : List Int}
    (hb : best.1 = Q.zero ∨ Q.lt Q.zero best.1) :
    (updBest best score positions).1 = Q.zero ∨ Q.lt Q.zero (updBest best score positions).1 := by
  rw [updBest]
  split_ifs with h
  · right
    rcases hb with hz | hp
    · rw [hz] at h
      exact h
    · exact Q.lt_trans' hp h
  · exact hb

theorem piLoop_succ_nil (ctx : Ctx) (hay needle : List Char) (fuel : Nat)
    (mem : Memory) (best : Q × List Int) :
    piLoop ctx hay needle (fuel + 1) [] mem best = best := rfl

theorem piLoop_succ_cons (ctx : Ctx) (hay needle : List Char) (fuel : Nat)
    (st : SState) (stack : List SState) (mem : Memory) (best : Q × List Int) :
    piLoop ctx hay needle (fuel + 1) (st :: stack) mem best =
      match mem.lookup (st.hidx, st.nidx, st.last_idx) with
      | some v => piLoop ctx hay needle fuel stack mem (updBest best v.1 v.2)
      | none =>
        piLoop ctx hay needle fuel
          ((chainFrom ctx hay needle (needle.length - st.nidx) st.nidx st.hidx st.last_idx st.score st.positions).2.reverse ++ stack)
          (((st.hidx, st.nidx, st.last_idx), (chainFrom ctx hay needle (needle.length - st.nidx) st.nidx st.hidx st.last_idx st.score st.positions).1) :: mem)
          (updBest best
            (chainFrom ctx hay needle (needle.length - st.nidx) st.nidx st.hidx st.last_idx st.score st.positions).1.1
            (chainFrom ctx hay needle (needle.length - st.nidx) st.nidx st.hidx st.last_idx st.score st.positions).1.2) := rfl

theorem piLoop_sound (ctx : Ctx) (hay needle : List Char) :
    ∀ (fuel : Nat) (stack : List SState) (mem : Memory) (best : Q × List Int),
      (∀ st ∈ stack, SubseqBy ctx.icu.peq (needle.take st.nidx) (hay.take st.hidx)) →
      (∀ e ∈ mem, Q.lt Q.zero e.2.1 → SubseqBy ctx.icu.peq needle hay) →
      (Q.lt Q.zero best.1 → SubseqBy ctx.icu.peq needle hay) →
      Q.lt Q.zero (piLoop ctx hay needle fuel stack mem best).1 →
      SubseqBy ctx.icu.peq needle hay := by
  intro fuel
  induction fuel with
  | zero =>
    intro stack mem best _ _ hbest hpos
    exact hbest hpos
  | succ fuel ih =>
    intro stack mem best hstack hmem hbest
    cases stack with
    | nil =>
      rw [piLoop_succ_nil]
      exact hbest
    | cons st stack =>
      rw [piLoop_succ_cons]
      cases hL : mem.lookup (st.hidx, st.nidx, st.last_idx) with
      | some v =>
        intro hpos
        have h1 : ∀ s ∈ stack, SubseqBy ctx.icu.peq (needle.take s.nidx) (hay.take s.hidx) :=
          fun s hs => hstack s (List.mem_cons_of_mem _ hs)
        have h3 : Q.lt Q.zero (updBest best v.1 v.2).1 → SubseqBy ctx.icu.peq needle hay := by
          refine updBest_pos hbest (fun hp => ?_)
          obtain ⟨k2, hk2⟩ := lookup_mem' mem _ v hL
          exact hmem (k2, v) hk2 hp
        exact ih stack mem (updBest best v.1 v.2) h1 hmem h3 hpos
      | none =>
        intro hpos
        have hP := hstack st (List.mem_cons_self _ _)
        have hc := chainFrom_sound ctx hay needle (needle.length - st.nidx) st.nidx
          st.hidx st.last_idx st.score st.positions (by omega) hP
        have h1 : ∀ s ∈ (chainFrom ctx hay needle (needle.length - st.nidx) st.nidx st.hidx st.last_idx st.score st.positions).2.reverse ++ stack,
            SubseqBy ctx.icu.peq (needle.take s.nidx) (hay.take s.hidx) := by
          intro s hs
          rcases List.mem_append.mp hs with hA | hB
          · exact hc.2 s (List.mem_reverse.mp hA)
          · exact hstack s (List.mem_cons_of_mem _ hB)
        have h2 : ∀ e ∈ ((st.hidx, st.nidx, st.last_idx),
              (chainFrom ctx hay needle (needle.length - st.nidx) st.nidx st.hidx st.last_idx st.score st.positions).1) :: mem,
            Q.lt Q.zero e.2.1 → SubseqBy ctx.icu.peq needle hay := by
          intro e he hpe
          rcases List.mem_cons.mp he with rfl | hB
          · exact hc.1 hpe
          · exact hmem e hB hpe
        have h3 := @updBest_pos (SubseqBy ctx.icu.peq needle hay) best
          (chainFrom ctx hay needle (needle.length - st.nidx) st.nidx st.hidx st.last_idx st.score st.positions).1.1
          (chainFrom ctx hay needle (needle.length - st.nidx) st.nidx st.hidx st.last_idx st.score st.positions).1.2
          hbest hc.1
        exact ih _ _ _ h1 h2 h3 hpos

theorem piLoop_zero_or_pos (ctx : Ctx) (hay needle : List Char) :
    ∀ (fuel : Nat) (stack : List SState) (mem : Memory) (best : Q × List Int),
      best.1 = Q.zero ∨ Q.lt Q.zero best.1 →
      ((piLoop ctx hay needle fuel stack mem best).1 = Q.zero ∨
        Q.lt Q.zero (piLoop ctx hay needle fuel stack mem best).1) := by
  intro fuel
  induction fuel with
  | zero =>
    intro stack mem best hb
    exact hb
  | succ fuel ih =>
    intro stack mem best hb
    cases stack with
    | nil =>
      rw [piLoop_succ_nil]
      exact hb
    | cons st stack =>
      rw [piLoop_succ_cons]
      cases hL : mem.lookup (st.hidx, st.nidx, st.last_idx) with
      | some v => exact ih stack mem (updBest best v.1 v.2) (updBest_zero_or_pos hb)
      | none =>
        exact ih
          ((chainFrom ctx hay needle (needle.length - st.nidx) st.nidx st.hidx st.last_idx st.score st.positions).2.reverse ++ stack)
          (((st.hidx, st.nidx, st.last_idx),
            (chainFrom ctx hay needle (needle.length - st.nidx) st.nidx st.hidx st.last_idx st.score st.positions).1) :: mem)
          (updBest best
            (chainFrom ctx hay needle (needle.length - st.nidx) st.nidx st.hidx st.last_idx st.score st.positions).1.1
            (chainFrom ctx hay needle (needle.length - st.nidx) st.nidx st.hidx st.last_idx st.score st.positions).1.2)
          (updBest_zero_or_pos hb)

theorem process_item_score_zero (ctx : Ctx) (hay needle : List Char)
    (h : ¬ SubseqBy ctx.icu.peq needle hay) :
    (process_item ctx hay needle).1 = Q.zero := by
  have hc := chainFrom_sound ctx hay needle needle.length 0 0 0 Q.zero
    (List.replicate needle.length (-1 : Int)) (by omega)
    (by rw [List.take_zero, List.take_zero]; exact SubseqBy.nil [])
  simp only [process_item]
  set c0 := chainFrom ctx hay needle needle.length 0 0 0 Q.zero
    (List.replicate needle.length (-1 : Int)) with hc0def
  have hb0 : (if Q.lt Q.zero c0.1.1 then c0.1.1 else Q.zero) = Q.zero := by
    split_ifs with hp
    · exact absurd (hc.1 hp) h
    · rfl
  rcases piLoop_zero_or_pos ctx hay needle ((needle.length + 1) ^ (hay.length + 2))
      c0.2.reverse [((0, 0, 0), c0.1)]
      (if Q.lt Q.zero c0.1.1 then c0.1.1 else Q.zero, c0.1.2) (Or.inl hb0) with hz | hp
  · exact hz
  · exfalso
    apply h
    refine piLoop_sound ctx hay needle ((needle.length + 1) ^ (hay.length + 2))
      c0.2.reverse [((0, 0, 0), c0.1)]
      (if Q.lt Q.zero c0.1.1 then c0.1.1 else Q.zero, c0.1.2) ?_ ?_ ?_ hp
    · intro st hst
      exact hc.2 st (List.mem_reverse.mp hst)
    · intro e he hpe
      rcases List.mem_singleton.mp he with rfl
      exact hc.1 hpe
    · intro hpb
      have hpb2 : Q.lt Q.zero (if Q.lt Q.zero c0.1.1 then c0.1.1 else Q.zero) := hpb
      rw [hb0] at hpb2
      exact absurd hpb2 (by decide)

theorem stableSort_go_perm {α : Type} (le : α → α → Bool) :
    ∀ (l acc : List α), List.Perm (l.foldl (fun a x => stableInsert le x a) acc) (l ++ acc)
  | [], acc => by simp
  | x :: l, acc => by
    have h1 := stableSort_go_perm le l (stableInsert le x acc)
    have h2 : List.Perm (l ++ stableInsert le x acc) (l ++ x :: acc) :=
      List.Perm.append_left l (stableInsert_perm le x acc)
    exact ((h1.trans h2).trans List.perm_middle : _)

theorem stableSort_perm {α : Type} (le : α → α → Bool) (l : List α) :
    List.Perm (stableSort le l) l := by
  have := stableSort_go_perm le l []
  simpa [stableSort] using this

theorem mem_of_mem_truncateTo {α : Type} {limit : Option Nat} {l : List α} {x : α}
    (h : x ∈ truncateTo limit l) : x ∈ l := by
  cases limit with
  | none => exact h
  | some k => exact List.take_subset k l h

theorem Q.beq_neg_zero (a : Q) : Q.beq a.neg Q.zero = Q.beq a Q.zero := by
  simp only [Q.beq, Q.neg, Q.zero]
  rw [Bool.eq_iff_iff]
  simp only [beq_iff_eq]
  omega

/-- C6: if the query is not a subsequence of the candidate under the
primary-strength character comparison — in particular whenever some query
character cannot be placed in the remaining haystack — `process_item` scores
the whole alignment `0` with no partial credit; and every candidate string
whose score table entries are all zero is absent from the ordered mapping the
query returns. -/
theorem C6_unmatchable_scores_zero_and_excluded
    (ctx : Ctx) (hay needle : List Char)
    (items : List String) (scores : Nat → Option Q)
    (positions : Nat → Option (List Int)) (limit : Option Nat) (s : String) :
    (isSubseqBy ctx.icu.peq needle hay = false →
      (process_item ctx hay needle).1 = Q.zero) ∧
    ((∀ j, j < items.length → items.getD j "" = s →
        Q.beq ((scores j).getD Q.zero) Q.zero = true) →
      ∀ v, (s, v) ∉ finalize items scores positions limit) := by
  constructor
  · intro hns
    apply process_item_score_zero
    intro hs
    rw [isSubseqBy_of_SubseqBy hay needle hs] at hns
    exact Bool.noConfusion hns
  · intro hall v hv
    have hkey : s ∈ (finalize items scores positions limit).map Prod.fst :=
      List.mem_map_of_mem Prod.fst hv
    rw [finalize] at hkey
    have hsub := odFromPairs_keys_sub _ s hkey
    rw [List.map_map] at hsub
    obtain ⟨t, htmem, hts⟩ := List.mem_map.mp hsub
    have hpred := List.of_mem_filter htmem
    simp only [Bool.not_eq_true] at hpred
    have htl := List.mem_of_mem_filter htmem
    have htp : t ∈ pySorted (scoredTuples items scores positions) :=
      mem_of_mem_truncateTo htl
    have hts2 : t ∈ scoredTuples items scores positions :=
      (stableSort_perm tupleLE _).mem_iff.mp htp
    rw [scoredTuples] at hts2
    obtain ⟨p, hpmem, hpf⟩ := List.mem_map.mp hts2
    obtain ⟨j, it⟩ := p
    rw [List.mk_mem_enum_iff_getElem?] at hpmem
    have hlt : j < items.length := by
      by_contra hc
      rw [List.getElem?_eq_none (by omega)] at hpmem
      exact Option.noConfusion hpmem
    have hgd : items.getD j "" = it := by
      rw [List.getD_eq_getElem?_getD, hpmem]
      rfl
    have hit : it = s := by
      rw [← hpf] at hts
      simpa using hts
    have hz := hall j hlt (hgd.trans hit)
    have ht1 : t.1 = ((scores j).getD Q.zero).neg := by
      rw [← hpf]
    rw [ht1, Q.beq_neg_zero, hz] at hpred
    exact Bool.noConfusion hpred

theorem C6_unmatchable_scores_zero_and_excluded_witness :
    isSubseqBy ctxC1.icu.peq "q".data "xy".data = false ∧
    (process_item ctxC1 "xy".data "q".data).1 = Q.zero ∧
    ("zz", ([] : List Int)) ∉
      finalize ["ab", "zz"]
        (fun j => if j = 1 then some Q.zero else some (Q.frac 3 4))
        (fun _ => some []) none := by
  have h := C6_unmatchable_scores_zero_and_excluded ctxC1 "xy".data "q".data
    ["ab", "zz"] (fun j => if j = 1 then some Q.zero else some (Q.frac 3 4))
    (fun _ => some []) none "zz"
  exact ⟨by decide, h.1 (by decide), h.2 (by decide) []⟩

theorem applyVals_eq_foldl (tm : List (Nat × Nat)) (v : List (Q × List Int)) (sp : Tables) :
    applyVals tm v sp = v.enum.foldl (avStep tm) sp := rfl

theorem avFold_agree (tm : List (Nat × Nat)) (j : Nat) :
    ∀ (l : List (Nat × Q × List Int)) (sp sp2 : Tables),
      sp.1 j = sp2.1 j → sp.2 j = sp2.2 j →
      ((l.foldl (avStep tm) sp).1 j = (l.foldl (avStep tm) sp2).1 j ∧
        (l.foldl (avStep tm) sp).2 j = (l.foldl (avStep tm) sp2).2 j)
  | [], sp, sp2, h1, h2 => ⟨h1, h2⟩
  | iv :: l, sp, sp2, h1, h2 => by
    rw [List.foldl_cons, List.foldl_cons]
    refine avFold_agree tm j l _ _ ?_ ?_
    · simp only [avStep]
      split_ifs
      · rfl
      · exact h1
    · simp only [avStep]
      split_ifs
      · rfl
      · exact h2

theorem avFold_not_hit (tm : List (Nat × Nat)) (j : Nat) :
    ∀ (l : List (Nat × Q × List Int)) (sp : Tables),
      (∀ iv ∈ l, (tm.lookup iv.1).getD 0 ≠ j) →
      ((l.foldl (avStep tm) sp).1 j = sp.1 j ∧ (l.foldl (avStep tm) sp).2 j = sp.2 j)
  | [], _, _ => ⟨rfl, rfl⟩
  | iv :: l, sp, h => by
    rw [List.foldl_cons]
    have hk := h iv (List.mem_cons_self _ _)
    have ih := avFold_not_hit tm j l (avStep tm sp iv)
      (fun x hx => h x (List.mem_cons_of_mem _ hx))
    refine ⟨ih.1.trans ?_, ih.2.trans ?_⟩
    · simp only [avStep]
      rw [if_neg (fun he => hk he.symm)]
    · simp only [avStep]
      rw [if_neg (fun he => hk he.symm)]

theorem avFold_hit (tm : List (Nat × Nat)) (j : Nat) :
    ∀ (l : List (Nat × Q × List Int)) (sp sp2 : Tables),
      (∃ iv ∈ l, (tm.lookup iv.1).getD 0 = j) →
      ((l.foldl (avStep tm) sp).1 j = (l.foldl (avStep tm) sp2).1 j ∧
        (l.foldl (avStep tm) sp).2 j = (l.foldl (avStep tm) sp2).2 j)
  | [], _, _, h => by simp at h
  | iv :: l, sp, sp2, h => by
    rw [List.foldl_cons, List.foldl_cons]
    by_cases hrest : ∃ x ∈ l, (tm.lookup x.1).getD 0 = j
    · exact avFold_hit tm j l _ _ hrest
    · obtain ⟨x, hx, hkey⟩ := h
      have hxiv : x = iv := by
        rcases List.mem_cons.mp hx with rfl | hmem
        · rfl
        · exact absurd ⟨x, hmem, hkey⟩ hrest
      subst hxiv
      refine avFold_agree tm j l _ _ ?_ ?_
      · simp only [avStep]
        rw [if_pos hkey.symm, if_pos hkey.symm]
      · simp only [avStep]
        rw [if_pos hkey.symm, if_pos hkey.symm]

theorem applyVals_comm (tm1 tm2 : List (Nat × Nat)) (v1 v2 : List (Q × List Int)) (sp : Tables)
    (hd : ∀ iv1 ∈ v1.enum, ∀ iv2 ∈ v2.enum,
        (tm1.lookup iv1.1).getD 0 ≠ (tm2.lookup iv2.1).getD 0) :
    applyVals tm2 v2 (applyVals tm1 v1 sp) = applyVals tm1 v1 (applyVals tm2 v2 sp) := by
  rw [applyVals_eq_foldl, applyVals_eq_foldl, applyVals_eq_foldl, applyVals_eq_foldl]
  have key : ∀ j : Nat,
      ((v2.enum.foldl (avStep tm2) (v1.enum.foldl (avStep tm1) sp)).1 j =
        (v1.enum.foldl (avStep tm1) (v2.enum.foldl (avStep tm2) sp)).1 j) ∧
      ((v2.enum.foldl (avStep tm2) (v1.enum.foldl (avStep tm1) sp)).2 j =
        (v1.enum.foldl (avStep tm1) (v2.enum.foldl (avStep tm2) sp)).2 j) := by
    intro j
    by_cases h1 : ∃ iv ∈ v1.enum, (tm1.lookup iv.1).getD 0 = j
    · by_cases h2 : ∃ iv ∈ v2.enum, (tm2.lookup iv.1).getD 0 = j
      · obtain ⟨a, ha, hak⟩ := h1
        obtain ⟨b, hb, hbk⟩ := h2
        exact absurd (hak.trans hbk.symm) (hd a ha b hb)
      · push_neg at h2
        have hL := avFold_not_hit tm2 j v2.enum (v1.enum.foldl (avStep tm1) sp) h2
        have hR := avFold_hit tm1 j v1.enum sp (v2.enum.foldl (avStep tm2) sp) h1
        exact ⟨hL.1.trans hR.1, hL.2.trans hR.2⟩
    · push_neg at h1
      by_cases h2 : ∃ iv ∈ v2.enum, (tm2.lookup iv.1).getD 0 = j
      · have hL := avFold_hit tm2 j v2.enum (v1.enum.foldl (avStep tm1) sp) sp h2
        have hR := avFold_not_hit tm1 j v1.enum (v2.enum.foldl (avStep tm2) sp) h1
        exact ⟨hL.1.trans hR.1.symm, hL.2.trans hR.2.symm⟩
      · push_neg at h2
        have hA := avFold_not_hit tm2 j v2.enum (v1.enum.foldl (avStep tm1) sp) h2
        have hB := avFold_not_hit tm1 j v1.enum sp h1
        have hC := avFold_not_hit tm1 j v1.enum (v2.enum.foldl (avStep tm2) sp) h1
        have hD := avFold_not_hit tm2 j v2.enum sp h2
        exact ⟨(hA.1.trans hB.1).trans (hC.1.trans hD.1).symm,
          (hA.2.trans hB.2).trans (hC.2.trans hD.2).symm⟩
  exact Prod.ext (funext fun j => (key j).1) (funext fun j => (key j).2)

theorem lookup_enumFrom_map {α β : Type} (f : α → β) :
    ∀ (xs : List α) (k l : Nat), k ≤ l →
      ((xs.enumFrom k).map (fun jp => (jp.1, f jp.2))).lookup l = (xs[l - k]?).map f
  | [], k, l, _ => by simp
  | x :: xs, k, l, hkl => by
    rw [List.enumFrom]
    simp only [List.map_cons]
    rw [List.lookup]
    by_cases hk : k = l
    · subst hk
      simp
    · have hbe : (l == k) = false := beq_eq_false_iff_ne.mpr (fun he => hk he.symm)
      rw [hbe]
      have hk1 : k + 1 ≤ l := by omega
      have hsub : l - k = (l - (k + 1)) + 1 := by omega
      rw [hsub, List.getElem?_cons_succ]
      exact lookup_enumFrom_map f xs (k + 1) l hk1

theorem lookup_enum_map_fst (task : List (Nat × String)) (l : Nat) (h : l < task.length) :
    ((task.enum.map (fun jp => (jp.1, jp.2.1))).lookup l).getD 0 = (task.getD l (0, "")).1 := by
  rw [List.enum_eq_enumFrom]
  rw [lookup_enumFrom_map Prod.fst task 0 l (Nat.zero_le l)]
  rw [Nat.sub_zero, List.getElem?_eq_getElem h]
  rw [List.getD_eq_getElem?_getD, List.getElem?_eq_getElem h]
  rfl

theorem mapM_ok_length {α β : Type} (f : α → Except PyErr β) :
    ∀ (l : List α) (r : List β), l.mapM f = .ok r → r.length = l.length
  | [], r, h => by
    rw [List.mapM_nil] at h
    simp only [pure, Except.pure, Except.ok.injEq] at h
    rw [← h]
    rfl
  | a :: l, r, h => by
    rw [List.mapM_cons] at h
    cases hfa : f a with
    | error e =>
      rw [hfa] at h
      simp only [bind, Except.bind] at h
      exact Except.noConfusion h
    | ok b =>
      rw [hfa] at h
      cases hml : l.mapM f with
      | error e =>
        rw [hml] at h
        simp only [bind, Except.bind] at h
        exact Except.noConfusion h
      | ok bs =>
        rw [hml] at h
        simp only [bind, Except.bind, pure, Except.pure, Except.ok.injEq] at h
        rw [← h]
        simp only [List.length_cons, mapM_ok_length f l bs hml]

theorem foldl_congr' {α β : Type} (f g : β → α → β) :
    ∀ (l : List α) (b : β), (∀ x ∈ l, ∀ z, f z x = g z x) → l.foldl f b = l.foldl g b
  | [], _, _ => rfl
  | a :: l, b, h => by
    rw [List.foldl_cons, List.foldl_cons, h a (List.mem_cons_self _ _) b]
    exact foldl_congr' f g l _ (fun x hx z => h x (List.mem_cons_of_mem _ hx) z)

theorem collectLoop_map_ok_fold (td : List (List (Nat × Nat))) (f : Nat → WMsg)
    (vals : Nat → List (Q × List Int)) :
    ∀ (arr : List Nat) (sp : Tables) (err : Option String),
      (∀ i ∈ arr, f i = WMsg.ok i (.ok (vals i))) →
      collectLoop td (arr.map f) sp err =
        .ok (arr.foldl (fun sp i => applyVals (td.getD i []) (vals i) sp) sp, err)
  | [], _, _, _ => rfl
  | a :: arr, sp, err, h => by
    simp only [List.map_cons]
    rw [h a (List.mem_cons_self _ _)]
    rw [show collectLoop td (WMsg.ok a (.ok (vals a)) :: arr.map f) sp err
        = collectLoop td (arr.map f) (applyVals (td.getD a []) (vals a) sp) err from rfl]
    rw [collectLoop_map_ok_fold td f vals arr _ err
      (fun x hx => h x (List.mem_cons_of_mem _ hx))]
    rw [List.foldl_cons]

theorem init_task_maps_length (env : MatcherEnv) (W : Nat) (items0 : List String) :
    (Matcher.init env W items0).task_maps.length =
      (split ((items0.filter (fun x => x != "")).map env.nfc) W).length := by
  simp [Matcher.init]

theorem init_task_maps_get (env : MatcherEnv) (W : Nat) (items0 : List String) (x : Nat)
    (hlen : x < (split ((items0.filter (fun s => s != "")).map env.nfc) W).length) :
    (Matcher.init env W items0).task_maps.getD x [] =
      ((split ((items0.filter (fun s => s != "")).map env.nfc) W).get ⟨x, hlen⟩).enum.map
        (fun jp => (jp.1, jp.2.1)) := by
  simp [Matcher.init, List.getD, List.getElem?_eq_getElem hlen]

theorem init_scorers_get (env : MatcherEnv) (W : Nat) (items0 : List String) (x : Nat)
    (hlen : x < (split ((items0.filter (fun s => s != "")).map env.nfc) W).length) :
    (Matcher.init env W items0).scorers.getD x (PyScorer.init []) =
      PyScorer.init (((split ((items0.filter (fun s => s != "")).map env.nfc) W).get
        ⟨x, hlen⟩).map Prod.snd) := by
  simp [Matcher.init, List.getD, List.getElem?_eq_getElem hlen]

theorem split_globals_disjoint {α : Type} (l : List α) (W : Nat) (hW : 0 < W)
    (x y : Nat) (hx : x < (split l W).length) (hy : y < (split l W).length) (hxy : x ≠ y)
    (g : Nat) (hgx : g ∈ ((split l W).get ⟨x, hx⟩).map Prod.fst)
    (hgy : g ∈ ((split l W).get ⟨y, hy⟩).map Prod.fst) : False := by
  have hnd : ((split l W).map (List.map Prod.fst)).flatten.Nodup := by
    rw [← List.map_flatten, split_flatten l W hW, List.enum_map_fst]
    exact List.nodup_range _
  have hpw := (List.nodup_flatten.mp hnd).2
  rcases Nat.lt_or_ge x y with hlt | hge
  · have hd := List.pairwise_iff_getElem.mp hpw x y (by simpa using hx) (by simpa using hy) hlt
    simp only [List.getElem_map] at hd
    exact hd hgx hgy
  · have hlt2 : y < x := by omega
    have hd := List.pairwise_iff_getElem.mp hpw y x (by simpa using hy) (by simpa using hx) hlt2
    simp only [List.getElem_map] at hd
    exact hd hgy hgx

theorem enum_fst_lt {α : Type} {l : List α} {k : Nat} {a : α} (h : (k, a) ∈ l.enum) :
    k < l.length := by
  rw [List.mk_mem_enum_iff_getElem?] at h
  by_contra hc
  rw [List.getElem?_eq_none (by omega)] at h
  exact Option.noConfusion h

/-- C8: for a fixed matcher (built by `Matcher.__init__` with at least one
pool slot) and a fixed query, the final output of `Matcher.__call__` is the
same for every order in which the per-partition results are collected from
the result queue (any permutation of the partition identifiers), and for any
state of the `sort_keys` cache — so issuing the same query twice against the
same matcher, the second call starting from the state the first call left
behind, yields the identical ordered output. -/
theorem C8_output_independent_of_arrival_order_and_repeat
    (env : MatcherEnv) (W : Nat) (items0 : List String) (hW : 0 < W)
    (ms1 ms2 : MState) (query : String) (limit : Option Nat)
    (arrival1 arrival2 : List Nat)
    (h1 : arrival1.Perm (List.range (Matcher.init env W items0).task_maps.length))
    (h2 : arrival2.Perm (List.range (Matcher.init env W items0).task_maps.length)) :
    (Matcher.call env (Matcher.init env W items0) ms1 query limit arrival1).1 =
      (Matcher.call env (Matcher.init env W items0) ms2 query limit arrival2).1 := by
  by_cases herr : ∃ i, i < (Matcher.init env W items0).task_maps.length ∧
      ∃ e, PyScorer.call env.icu ((Matcher.init env W items0).scorers.getD i (PyScorer.init []))
        (env.nfc query) = .error e
  · obtain ⟨i, hi, e, he⟩ := herr
    have hcall : ∀ (ms : MState) (arr : List Nat),
        arr.Perm (List.range (Matcher.init env W items0).task_maps.length) →
        (Matcher.call env (Matcher.init env W items0) ms query limit arr).1 =
          .error (.uncaught .zeroDivision) := by
      intro ms arr hperm
      have hmem : i ∈ arr := hperm.mem_iff.mpr (List.mem_range.mpr hi)
      have hmsg : WMsg.ok i (.error e) ∈ arr.map (fun j => Worker.runJob env.icu
          (j, (Matcher.init env W items0).scorers.getD j (PyScorer.init []), env.nfc query)) := by
        refine List.mem_map.mpr ⟨i, hmem, ?_⟩
        show WMsg.ok i (PyScorer.call env.icu
          ((Matcher.init env W items0).scorers.getD i (PyScorer.init [])) (env.nfc query)) =
          WMsg.ok i (.error e)
        rw [he]
      simp only [Matcher.call]
      rw [collectLoop_error (Matcher.init env W items0).task_maps _
        ((fun _ => none), (fun _ => none)) none ⟨i, e, hmsg⟩]
    rw [hcall ms1 arrival1 h1, hcall ms2 arrival2 h2]
  · push_neg at herr
    obtain ⟨vals, hvals⟩ : ∃ vals : Nat → List (Q × List Int),
        ∀ i, i < (Matcher.init env W items0).task_maps.length →
          PyScorer.call env.icu ((Matcher.init env W items0).scorers.getD i (PyScorer.init []))
            (env.nfc query) = .ok (vals i) := by
      refine ⟨fun i => (PyScorer.call env.icu
        ((Matcher.init env W items0).scorers.getD i (PyScorer.init []))
        (env.nfc query)).toOption.getD [], ?_⟩
      intro i hi
      cases hc : PyScorer.call env.icu
          ((Matcher.init env W items0).scorers.getD i (PyScorer.init [])) (env.nfc query) with
      | error e => exact absurd hc (herr i hi e)
      | ok v =>
        show Except.ok v = Except.ok ((PyScorer.call env.icu
          ((Matcher.init env W items0).scorers.getD i (PyScorer.init []))
          (env.nfc query)).toOption.getD [])
        rw [hc]
        rfl
    have hcall : ∀ (ms : MState) (arr : List Nat),
        arr.Perm (List.range (Matcher.init env W items0).task_maps.length) →
        (Matcher.call env (Matcher.init env W items0) ms query limit arr).1 =
          .ok (finalize (Matcher.init env W items0).items
            (arr.foldl (fun sp i => applyVals ((Matcher.init env W items0).task_maps.getD i [])
              (vals i) sp) ((fun _ => none), (fun _ => none))).1
            (arr.foldl (fun sp i => applyVals ((Matcher.init env W items0).task_maps.getD i [])
              (vals i) sp) ((fun _ => none), (fun _ => none))).2 limit) := by
      intro ms arr hperm
      have hix : ∀ i ∈ arr, i < (Matcher.init env W items0).task_maps.length := fun i hi =>
        List.mem_range.mp (hperm.mem_iff.mp hi)
      have hmsgs : ∀ i ∈ arr, (fun j => Worker.runJob env.icu
          (j, (Matcher.init env W items0).scorers.getD j (PyScorer.init []), env.nfc query)) i =
          WMsg.ok i (.ok (vals i)) := by
        intro i hi
        show WMsg.ok i (PyScorer.call env.icu
          ((Matcher.init env W items0).scorers.getD i (PyScorer.init [])) (env.nfc query)) =
          WMsg.ok i (.ok (vals i))
        rw [hvals i (hix i hi)]
      simp only [Matcher.call]
      rw [collectLoop_map_ok_fold (Matcher.init env W items0).task_maps _ vals arr
        ((fun _ => none), (fun _ => none)) none hmsgs]
    have hdisj : ∀ x, x < (Matcher.init env W items0).task_maps.length →
        ∀ y, y < (Matcher.init env W items0).task_maps.length → x ≠ y →
        ∀ iv1 ∈ (vals x).enum, ∀ iv2 ∈ (vals y).enum,
          (((Matcher.init env W items0).task_maps.getD x []).lookup iv1.1).getD 0 ≠
            (((Matcher.init env W items0).task_maps.getD y []).lookup iv2.1).getD 0 := by
      intro x hx y hy hxy iv1 hiv1 iv2 hiv2 heq
      have hxs : x < (split ((items0.filter (fun s => s != "")).map env.nfc) W).length := by
        rw [← init_task_maps_length]
        exact hx
      have hys : y < (split ((items0.filter (fun s => s != "")).map env.nfc) W).length := by
        rw [← init_task_maps_length]
        exact hy
      obtain ⟨k1, p1⟩ := iv1
      obtain ⟨k2, p2⟩ := iv2
      have hk1 : k1 < (vals x).length := enum_fst_lt hiv1
      have hk2 : k2 < (vals y).length := enum_fst_lt hiv2
      have hvx := hvals x hx
      have hvy := hvals y hy
      rw [init_scorers_get env W items0 x hxs] at hvx
      rw [init_scorers_get env W items0 y hys] at hvy
      rw [PyScorer.call] at hvx hvy
      have hlx := mapM_ok_length _ _ _ hvx
      have hly := mapM_ok_length _ _ _ hvy
      simp only [PyScorer.init, List.length_map] at hlx hly
      have hk1s : k1 <
          ((split ((items0.filter (fun s => s != "")).map env.nfc) W).get ⟨x, hxs⟩).length := by
        omega
      have hk2s : k2 <
          ((split ((items0.filter (fun s => s != "")).map env.nfc) W).get ⟨y, hys⟩).length := by
        omega
      rw [init_task_maps_get env W items0 x hxs, lookup_enum_map_fst _ k1 hk1s] at heq
      rw [init_task_maps_get env W items0 y hys, lookup_enum_map_fst _ k2 hk2s] at heq
      have hgx : ((((split ((items0.filter (fun s => s != "")).map env.nfc) W).get
            ⟨x, hxs⟩).getD k1 (0, "")).1) ∈
          ((split ((items0.filter (fun s => s != "")).map env.nfc) W).get ⟨x, hxs⟩).map
            Prod.fst := by
        refine List.mem_map_of_mem Prod.fst ?_
        rw [List.getD_eq_getElem?_getD, List.getElem?_eq_getElem hk1s, Option.getD_some]
        exact List.getElem_mem hk1s
      have hgy : ((((split ((items0.filter (fun s => s != "")).map env.nfc) W).get
            ⟨y, hys⟩).getD k2 (0, "")).1) ∈
          ((split ((items0.filter (fun s => s != "")).map env.nfc) W).get ⟨y, hys⟩).map
            Prod.fst := by
        refine List.mem_map_of_mem Prod.fst ?_
        rw [List.getD_eq_getElem?_getD, List.getElem?_eq_getElem hk2s, Option.getD_some]
        exact List.getElem_mem hk2s
      rw [heq] at hgx
      exact split_globals_disjoint _ W hW x y hxs hys hxy _ hgx hgy
    have hcomm : ∀ x ∈ arrival1, ∀ y ∈ arrival1, ∀ z : Tables,
        applyVals ((Matcher.init env W items0).task_maps.getD y []) (vals y)
          (applyVals ((Matcher.init env W items0).task_maps.getD x []) (vals x) z) =
        applyVals ((Matcher.init env W items0).task_maps.getD x []) (vals x)
          (applyVals ((Matcher.init env W items0).task_maps.getD y []) (vals y) z) := by
      intro x hx y hy z
      by_cases hxy : x = y
      · subst hxy
        rfl
      · exact applyVals_comm _ _ _ _ z
          (hdisj x (List.mem_range.mp (h1.mem_iff.mp hx))
            y (List.mem_range.mp (h1.mem_iff.mp hy)) hxy)
    rw [hcall ms1 arrival1 h1, hcall ms2 arrival2 h2]
    have hfold := @List.Perm.foldl_eq' Tables Nat
      (fun sp i => applyVals ((Matcher.init env W items0).task_maps.getD i []) (vals i) sp)
      arrival1 arrival2 (h1.trans h2.symm) hcomm ((fun _ => none), (fun _ => none))
    rw [hfold]

theorem C8_output_independent_of_arrival_order_and_repeat_witness :
    0 < 2 ∧
    [1, 0].Perm (List.range (Matcher.init plainEnv 2 ["a", "a", "ax", "ay"]).task_maps.length) ∧
    [0, 1].Perm (List.range (Matcher.init plainEnv 2 ["a", "a", "ax", "ay"]).task_maps.length) ∧
    (Matcher.call plainEnv (Matcher.init plainEnv 2 ["a", "a", "ax", "ay"]) ⟨none⟩
        "a" (some 2) [1, 0]).1 =
      (Matcher.call plainEnv (Matcher.init plainEnv 2 ["a", "a", "ax", "ay"]) ⟨some [(0, [1])]⟩
        "a" (some 2) [0, 1]).1 :=
  ⟨by decide, by decide, by decide,
    C8_output_independent_of_arrival_order_and_repeat plainEnv 2 ["a", "a", "ax", "ay"]
      (by decide) ⟨none⟩ ⟨some [(0, [1])]⟩ "a" (some 2) [1, 0] [0, 1] (by decide) (by decide)⟩

end CalibreMatcher
